import Mathlib

/-!
# Verification of the Minichess engine (`MinichessEngine.py`)

A shallow embedding of the Minichess variant engine: board representation,
pseudo-legal move generation, check detection, legality filtering, game
termination, and the strategy engines (random, greedy, minimax with
alpha-beta pruning).

Conventions of the embedding:
* Python `int` positions become `ℤ` (they can go off-board during
  generation, guarded by `is_valid_pos`); row/column counts become `ℕ`.
* The board grid is a `List (List (Option Piece))`, mirroring the Python
  list-of-lists; in-bounds reads/writes use `getD`/`set`, which agree with
  Python indexing for the guarded accesses the code performs.
* The board object's attributes are split into `BoardCore` (variant tag,
  geometry, double-move flag, grid: everything the movement and attack
  functions read) and the remaining game-state attributes (turn, history,
  counters) in `MinichessBoard`.  This is only a grouping of the same
  attributes: a method reading `self.rows` reads `b.core.rows` here.
* Python floats (piece values, bonuses) become `ℚ`; `float('-inf')` and
  `float('inf')` become `⊥` and `⊤` of `WithBot (WithTop ℚ)`.
* In-place mutation followed by restoration (the legality filter) is
  embedded as a pure computation on the updated grid; `board.copy()`
  followed by `make_move` is embedded as `make_move` on the value
  (deep copy is the identity on pure values).  The aliasing behaviour of
  `copy` itself is modelled separately with an explicit heap.
* `random.choice` takes an explicit selector index; the stream of draws of
  `random.uniform(-0.001, 0.001)` in `evaluate_position` is threaded as an
  explicit `ℕ → ℚ` stream with a position counter.
-/

namespace Minichess

set_option maxRecDepth 100000

inductive PieceType where
  | pawn | rook | bishop | knight | queen | king
deriving DecidableEq, Repr

inductive Color where
  | white | black
deriving DecidableEq, Repr

/-- `Piece` dataclass: a piece type together with its color. -/
structure Piece where
  type : PieceType
  color : Color
deriving DecidableEq, Repr

/-- `Move` dataclass: from/to squares as (row, col), the moving piece, and
the captured piece recorded at generation time (if any). -/
structure Move where
  from_pos : ℤ × ℤ
  to_pos : ℤ × ℤ
  piece : Piece
  captured : Option Piece := none
deriving DecidableEq, Repr

abbrev Grid := List (List (Option Piece))

/-- The attributes of `MinichessBoard` read by movement, attack and
material computations: variant tag, double-pawn-move flag, geometry and
the grid. -/
structure BoardCore where
  variant : String
  pawn_double_move : Bool
  rows : ℕ
  cols : ℕ
  board : Grid
deriving DecidableEq, Repr

/-- Full `MinichessBoard` state: core attributes plus side to move,
history and counters. -/
structure MinichessBoard where
  core : BoardCore
  turn : Color
  move_history : List Move
  fullmove_number : ℕ
  halfmove_clock : ℕ
deriving DecidableEq, Repr

/-- Read a grid cell at integer coordinates (meaningful for in-bounds
coordinates, where it coincides with Python `self.board[r][c]`). -/
def cellGet (g : Grid) (r c : ℤ) : Option Piece :=
  (g.getD r.toNat []).getD c.toNat none

/-- Write a grid cell at integer coordinates (meaningful for in-bounds
coordinates, where it coincides with Python `self.board[r][c] = p`). -/
def cellSet (g : Grid) (r c : ℤ) (p : Option Piece) : Grid :=
  g.set r.toNat ((g.getD r.toNat []).set c.toNat p)

/-- `is_valid_pos`: the position is on the board. -/
def is_valid_pos (bc : BoardCore) (r c : ℤ) : Bool :=
  decide (0 ≤ r) && decide (r < (bc.rows : ℤ)) && decide (0 ≤ c) && decide (c < (bc.cols : ℤ))

/-- `get_piece`: piece at a position, `none` off-board. -/
def get_piece (bc : BoardCore) (r c : ℤ) : Option Piece :=
  if is_valid_pos bc r c then cellGet bc.board r c else none

/-- `set_piece`: set a cell if the position is on the board. -/
def set_piece (b : MinichessBoard) (r c : ℤ) (p : Option Piece) : MinichessBoard :=
  if is_valid_pos b.core r c then
    { b with core := { b.core with board := cellSet b.core.board r c p } }
  else b

def opponent : Color → Color
  | Color.white => Color.black
  | Color.black => Color.white

/-- `_generate_pawn_moves`: forward push, optional double push from the
variant's start row, and the two diagonal captures, in source order. -/
def generate_pawn_moves (bc : BoardCore) (row col : ℤ) (piece : Piece) : List Move :=
  let direction : ℤ := if piece.color = Color.white then 1 else -1
  let forward :=
    let new_row := row + direction
    if is_valid_pos bc new_row col && (cellGet bc.board new_row col).isNone then
      Move.mk (row, col) (new_row, col) piece none ::
        (if bc.pawn_double_move then
          let start_row : ℤ :=
            if bc.variant = "4x5" ∨ bc.variant = "5x6" then
              (if piece.color = Color.white then 1 else (bc.rows : ℤ) - 2)
            else if bc.variant = "5x5" then
              (if piece.color = Color.white then 1 else 3)
            else -1
          if row = start_row then
            let new_row2 := row + 2 * direction
            if is_valid_pos bc new_row2 col && (cellGet bc.board new_row2 col).isNone then
              [Move.mk (row, col) (new_row2, col) piece none]
            else []
          else []
        else [])
    else []
  let captures := ([-1, 1] : List ℤ).flatMap (fun dc =>
    let new_row := row + direction
    let new_col := col + dc
    if is_valid_pos bc new_row new_col then
      match cellGet bc.board new_row new_col with
      | some target =>
          if target.color ≠ piece.color then
            [Move.mk (row, col) (new_row, new_col) piece (some target)]
          else []
      | none => []
    else [])
  forward ++ captures

/-- One sliding ray: `for i in range(1, max(rows, cols))` with the
break/continue structure of the Python loop, as fuel recursion. -/
def rayWalk (bc : BoardCore) (row col : ℤ) (piece : Piece) (dr dc : ℤ) :
    ℕ → ℤ → List Move
  | 0, _ => []
  | fuel + 1, i =>
      let new_row := row + dr * i
      let new_col := col + dc * i
      if is_valid_pos bc new_row new_col then
        match cellGet bc.board new_row new_col with
        | none =>
            Move.mk (row, col) (new_row, new_col) piece none ::
              rayWalk bc row col piece dr dc fuel (i + 1)
        | some target =>
            if target.color ≠ piece.color then
              [Move.mk (row, col) (new_row, new_col) piece (some target)]
            else []
      else []

def slideMoves (bc : BoardCore) (row col : ℤ) (piece : Piece)
    (directions : List (ℤ × ℤ)) : List Move :=
  directions.flatMap (fun d => rayWalk bc row col piece d.1 d.2 (max bc.rows bc.cols - 1) 1)

/-- `_generate_rook_moves`. -/
def generate_rook_moves (bc : BoardCore) (row col : ℤ) (piece : Piece) : List Move :=
  slideMoves bc row col piece [(0, 1), (0, -1), (1, 0), (-1, 0)]

/-- `_generate_queen_moves`. -/
def generate_queen_moves (bc : BoardCore) (row col : ℤ) (piece : Piece) : List Move :=
  slideMoves bc row col piece [(0, 1), (0, -1), (1, 0), (-1, 0), (1, 1), (1, -1), (-1, 1), (-1, -1)]

/-- `_generate_bishop_moves`. -/
def generate_bishop_moves (bc : BoardCore) (row col : ℤ) (piece : Piece) : List Move :=
  slideMoves bc row col piece [(1, 1), (1, -1), (-1, 1), (-1, -1)]

/-- Leaping move pattern shared by `_generate_knight_moves` and
`_generate_king_moves`: the captured field records the destination cell
content (possibly `none`), exactly as in the source. -/
def leapMoves (bc : BoardCore) (row col : ℤ) (piece : Piece)
    (offsets : List (ℤ × ℤ)) : List Move :=
  offsets.flatMap (fun d =>
    let new_row := row + d.1
    let new_col := col + d.2
    if is_valid_pos bc new_row new_col then
      let target := cellGet bc.board new_row new_col
      if target.isNone || (target.elim false (fun t => t.color ≠ piece.color)) then
        [Move.mk (row, col) (new_row, new_col) piece target]
      else []
    else [])

/-- `_generate_knight_moves`. -/
def generate_knight_moves (bc : BoardCore) (row col : ℤ) (piece : Piece) : List Move :=
  leapMoves bc row col piece [(2, 1), (2, -1), (-2, 1), (-2, -1), (1, 2), (1, -2), (-1, 2), (-1, -2)]

/-- `_generate_king_moves`. -/
def generate_king_moves (bc : BoardCore) (row col : ℤ) (piece : Piece) : List Move :=
  leapMoves bc row col piece [(0, 1), (0, -1), (1, 0), (-1, 0), (1, 1), (1, -1), (-1, 1), (-1, -1)]

/-- `_generate_piece_moves`: dispatch on the piece type. -/
def generate_piece_moves (bc : BoardCore) (row col : ℤ) (piece : Piece) : List Move :=
  match piece.type with
  | PieceType.pawn => generate_pawn_moves bc row col piece
  | PieceType.rook => generate_rook_moves bc row col piece
  | PieceType.bishop => generate_bishop_moves bc row col piece
  | PieceType.knight => generate_knight_moves bc row col piece
  | PieceType.queen => generate_queen_moves bc row col piece
  | PieceType.king => generate_king_moves bc row col piece

/-- Row-major enumeration of the board squares
(`for row in range(rows): for col in range(cols)`). -/
def squares (bc : BoardCore) : List (ℤ × ℤ) :=
  (List.range bc.rows).flatMap (fun r => (List.range bc.cols).map (fun c => ((r : ℤ), (c : ℤ))))

/-- The pseudo-legal move collection pass of `generate_legal_moves`. -/
def allPseudoMoves (b : MinichessBoard) : List Move :=
  (squares b.core).flatMap (fun rc =>
    match cellGet b.core.board rc.1 rc.2 with
    | some piece =>
        if piece.color = b.turn then generate_piece_moves b.core rc.1 rc.2 piece else []
    | none => [])

/-- `_find_king`: first king of the given color in row-major order. -/
def find_king (bc : BoardCore) (color : Color) : Option (ℤ × ℤ) :=
  (squares bc).find? (fun rc => cellGet bc.board rc.1 rc.2 = some (Piece.mk PieceType.king color))

/-- `_is_square_attacked`: some piece of `by_color` has a pseudo-legal move
onto the square. -/
def is_square_attacked (bc : BoardCore) (row col : ℤ) (by_color : Color) : Bool :=
  (squares bc).any (fun rc =>
    match cellGet bc.board rc.1 rc.2 with
    | some piece =>
        piece.color = by_color &&
          (generate_piece_moves bc rc.1 rc.2 piece).any (fun m => m.to_pos = (row, col))
    | none => false)

/-- `is_in_check`: the king's square is attacked by the opponent; `false`
when no king of that color is on the board. -/
def is_in_check (bc : BoardCore) (color : Color) : Bool :=
  match find_king bc color with
  | none => false
  | some kp => is_square_attacked bc kp.1 kp.2 (opponent color)

/-- The two grid assignments shared by `make_move` and by the speculative
application inside `_move_leaves_king_in_check`:
`board[to] = board[from]; board[from] = None`. -/
def applyMoveGrid (g : Grid) (m : Move) : Grid :=
  let moved := cellGet g m.from_pos.1 m.from_pos.2
  cellSet (cellSet g m.to_pos.1 m.to_pos.2 moved) m.from_pos.1 m.from_pos.2 none

/-- `_move_leaves_king_in_check`: the Python code applies the move in
place, queries `is_in_check`, and restores the two cells; the pure
embedding queries `is_in_check` on the updated grid. -/
def move_leaves_king_in_check (bc : BoardCore) (m : Move) : Bool :=
  is_in_check { bc with board := applyMoveGrid bc.board m } m.piece.color

/-- `generate_legal_moves`: pseudo-legal moves filtered by king safety. -/
def generate_legal_moves (b : MinichessBoard) : List Move :=
  (allPseudoMoves b).filter (fun m => ! move_leaves_king_in_check b.core m)

/-- `make_move`: unconditionally applies the move, updates the halfmove
clock and fullmove number, flips the turn, appends to history, and returns
`True`. -/
def make_move (b : MinichessBoard) (m : Move) : MinichessBoard × Bool :=
  ({ core := { b.core with board := applyMoveGrid b.core.board m }
     halfmove_clock :=
       if m.captured.isSome || m.piece.type = PieceType.pawn then 0 else b.halfmove_clock + 1
     fullmove_number :=
       if b.turn = Color.black then b.fullmove_number + 1 else b.fullmove_number
     turn := if b.turn = Color.white then Color.black else Color.white
     move_history := b.move_history ++ [m] }, true)

/-- `is_checkmate`: early-return `False` when not in check, else test for
no legal moves. -/
def is_checkmate (b : MinichessBoard) : Bool :=
  if is_in_check b.core b.turn then decide ((generate_legal_moves b).length = 0) else false

/-- `is_stalemate`: early-return `False` when in check, else test for no
legal moves. -/
def is_stalemate (b : MinichessBoard) : Bool :=
  if is_in_check b.core b.turn then false else decide ((generate_legal_moves b).length = 0)

/-- `is_game_over`: checkmate, stalemate, or 50-ply halfmove clock. -/
def is_game_over (b : MinichessBoard) : Bool :=
  if is_checkmate b || is_stalemate b then true
  else if 50 ≤ b.halfmove_clock then true
  else false

/-- `get_result`. -/
def get_result (b : MinichessBoard) : String :=
  if is_checkmate b then (if b.turn = Color.white then "0-1" else "1-0")
  else if is_stalemate b then "1/2-1/2"
  else if 50 ≤ b.halfmove_clock then "1/2-1/2"
  else "*"

/-! ## Initial positions (`__init__` + `_setup_board`) -/

def wP (t : PieceType) : Option Piece := some (Piece.mk t Color.white)
def bP (t : PieceType) : Option Piece := some (Piece.mk t Color.black)

def pawnRow (c : Color) (n : ℕ) : List (Option Piece) :=
  List.replicate n (some (Piece.mk PieceType.pawn c))

def emptyRow (n : ℕ) : List (Option Piece) := List.replicate n none

open PieceType in
/-- The grid produced by `_setup_board` for each supported variant. -/
def setupGrid : String → Option Grid
  | "4x4" => some
      [[wP rook, wP queen, wP king, wP rook], pawnRow Color.white 4,
       pawnRow Color.black 4, [bP rook, bP queen, bP king, bP rook]]
  | "4x5" => some
      [[wP rook, wP queen, wP king, wP rook], pawnRow Color.white 4, emptyRow 4,
       pawnRow Color.black 4, [bP rook, bP queen, bP king, bP rook]]
  | "4x8" => some
      [[wP king, wP bishop, wP knight, wP rook], pawnRow Color.white 4,
       emptyRow 4, emptyRow 4, emptyRow 4, emptyRow 4,
       pawnRow Color.black 4, [bP king, bP bishop, bP knight, bP rook]]
  | "5x5" => some
      [[wP king, wP queen, wP bishop, wP knight, wP rook], pawnRow Color.white 5,
       emptyRow 5, pawnRow Color.black 5,
       [bP king, bP queen, bP bishop, bP knight, bP rook]]
  | "5x6" => some
      [[wP king, wP queen, wP bishop, wP knight, wP rook], pawnRow Color.white 5,
       emptyRow 5, emptyRow 5, pawnRow Color.black 5,
       [bP king, bP queen, bP bishop, bP knight, bP rook]]
  | "6x6" => some
      [[wP rook, wP knight, wP queen, wP king, wP knight, wP rook], pawnRow Color.white 6,
       emptyRow 6, emptyRow 6, pawnRow Color.black 6,
       [bP rook, bP knight, bP queen, bP king, bP knight, bP rook]]
  | _ => none

/-- Board dimensions and double-pawn-move flag per variant (`__init__`);
`none` models the `ValueError` on an unknown variant. -/
def variantDims : String → Option (ℕ × ℕ × Bool)
  | "4x4" => some (4, 4, false)
  | "4x5" => some (5, 4, true)
  | "4x8" => some (8, 4, false)
  | "5x5" => some (5, 5, true)
  | "5x6" => some (6, 5, true)
  | "6x6" => some (6, 6, false)
  | _ => none

/-- `MinichessBoard(variant)`: the freshly constructed board. -/
def mkBoard (variant : String) : Option MinichessBoard := do
  let (rows, cols, dbl) ← variantDims variant
  let g ← setupGrid variant
  pure { core := { variant := variant, pawn_double_move := dbl, rows := rows, cols := cols,
                   board := g },
         turn := Color.white, move_history := [],
         fullmove_number := 1, halfmove_clock := 0 }

/-! ## Evaluation and engines -/

/-- `PIECE_VALUES`. -/
def PIECE_VALUES : PieceType → ℚ
  | PieceType.pawn => 1
  | PieceType.knight => 3
  | PieceType.bishop => 31 / 10
  | PieceType.rook => 5
  | PieceType.queen => 9
  | PieceType.king => 0

/-- `material_eval`: signed material sum from White's perspective. -/
def material_eval (bc : BoardCore) : ℚ :=
  (squares bc).foldl (fun score rc =>
    match cellGet bc.board rc.1 rc.2 with
    | some piece =>
        score + (if piece.color = Color.white then PIECE_VALUES piece.type
                 else -PIECE_VALUES piece.type)
    | none => score) 0

/-- Scores with `float('-inf')` as `⊥` and `float('inf')` as `⊤`. -/
abbrev Score := WithBot (WithTop ℚ)

def qs (q : ℚ) : Score := ((q : WithTop ℚ) : Score)

/-- `MinimaxEngine.evaluate_position`, with the stream of draws of
`random.uniform(-0.001, 0.001)` made explicit: `jit` is the stream and `i`
the index of the next unconsumed draw.  The checkmate/stalemate/clock
branches return before the `random.uniform` call and so consume nothing. -/
def evaluate_position (jit : ℕ → ℚ) (b : MinichessBoard) (i : ℕ) : ℚ × ℕ :=
  if is_checkmate b then ((if b.turn = Color.white then -9999 else 9999), i)
  else if is_stalemate b || 50 ≤ b.halfmove_clock then (0, i)
  else
    let score := material_eval b.core
    let score :=
      if b.fullmove_number < 5 then
        let mobility_bonus := ((generate_legal_moves b).length : ℚ) * (1 / 20)
        if b.turn = Color.white then score + mobility_bonus else score - mobility_bonus
      else score
    (score + jit i, i + 1)

/-- `evaluate_position` with the random perturbation fixed to `0`: the
deterministic part of the evaluation. -/
def evaluate_positionD (b : MinichessBoard) : ℚ :=
  (evaluate_position (fun _ => 0) b 0).1

/-- `MinimaxEngine.order_moves`'s `move_priority` (negated score, so that
ascending order by priority is descending order by score). -/
def move_priority (b : MinichessBoard) (m : Move) : ℚ :=
  let s₁ : ℚ := match m.captured with
    | some cap => 10 + PIECE_VALUES cap.type
    | none => 0
  let board_copy := (make_move b m).1
  let opp := if b.turn = Color.white then Color.black else Color.white
  let s₂ : ℚ := (if is_in_check board_copy.core opp then 5 else 0)
  let score := -(s₁ + s₂)
  score

/-- `MinimaxEngine.order_moves`: Python's `sorted(moves, key=move_priority)`
is the stable ascending sort by key, which is exactly what insertion sort
with the key order computes. -/
def order_moves (b : MinichessBoard) (moves : List Move) : List Move :=
  List.insertionSort (fun a c => move_priority b a ≤ move_priority b c) moves

/-- The `for move in legal_moves` loop of the maximizing branch of
`minimax`: `max_eval`/`alpha` updates with the `beta <= alpha` break, and
the stream counter threaded through the recursive scores `f`. -/
def abMaxLoopT (f : Move → Score → Score → ℕ → Score × ℕ) (beta : Score) :
    List Move → Score → Score → ℕ → Score × ℕ
  | [], max_eval, _, i => (max_eval, i)
  | m :: rest, max_eval, alpha, i =>
      let r := f m alpha beta i
      let max_eval' := max max_eval r.1
      let alpha' := max alpha r.1
      if beta ≤ alpha' then (max_eval', r.2)
      else abMaxLoopT f beta rest max_eval' alpha' r.2

/-- The minimizing branch loop of `minimax`. -/
def abMinLoopT (f : Move → Score → Score → ℕ → Score × ℕ) (alpha : Score) :
    List Move → Score → Score → ℕ → Score × ℕ
  | [], min_eval, _, i => (min_eval, i)
  | m :: rest, min_eval, beta, i =>
      let r := f m alpha beta i
      let min_eval' := min min_eval r.1
      let beta' := min beta r.1
      if beta' ≤ alpha then (min_eval', r.2)
      else abMinLoopT f alpha rest min_eval' beta' r.2

/-- `MinimaxEngine.minimax`: alpha-beta search with the jitter stream
threaded through evaluation order. -/
def minimax (jit : ℕ → ℚ) :
    MinichessBoard → ℕ → Score → Score → Bool → ℕ → Score × ℕ
  | b, 0, _, _, _, i =>
      let e := evaluate_position jit b i
      (qs e.1, e.2)
  | b, depth + 1, alpha, beta, maximizing, i =>
      if is_game_over b then
        let e := evaluate_position jit b i
        (qs e.1, e.2)
      else
        let legal_moves := order_moves b (generate_legal_moves b)
        if maximizing then
          abMaxLoopT (fun m a bt j => minimax jit (make_move b m).1 depth a bt false j)
            beta legal_moves ⊥ alpha i
        else
          abMinLoopT (fun m a bt j => minimax jit (make_move b m).1 depth a bt true j)
            alpha legal_moves ⊤ beta i

/-- Plain minimax loop, maximizing: no pruning, stream threaded. -/
def plainMaxLoopT (f : Move → ℕ → Score × ℕ) : List Move → Score → ℕ → Score × ℕ
  | [], max_eval, i => (max_eval, i)
  | m :: rest, max_eval, i =>
      let r := f m i
      plainMaxLoopT f rest (max max_eval r.1) r.2

/-- Plain minimax loop, minimizing: no pruning, stream threaded. -/
def plainMinLoopT (f : Move → ℕ → Score × ℕ) : List Move → Score → ℕ → Score × ℕ
  | [], min_eval, i => (min_eval, i)
  | m :: rest, min_eval, i =>
      let r := f m i
      plainMinLoopT f rest (min min_eval r.1) r.2

/-- Modelled from the spec: "plain minimax result (no pruning) for
identical depth and position" — `minimax` with the alpha-beta bounds and
the pruning break removed, everything else (move ordering, evaluation,
stream threading) unchanged. -/
def plain_minimax (jit : ℕ → ℚ) : MinichessBoard → ℕ → Bool → ℕ → Score × ℕ
  | b, 0, _, i =>
      let e := evaluate_position jit b i
      (qs e.1, e.2)
  | b, depth + 1, maximizing, i =>
      if is_game_over b then
        let e := evaluate_position jit b i
        (qs e.1, e.2)
      else
        let legal_moves := order_moves b (generate_legal_moves b)
        if maximizing then
          plainMaxLoopT (fun m j => plain_minimax jit (make_move b m).1 depth false j)
            legal_moves ⊥ i
        else
          plainMinLoopT (fun m j => plain_minimax jit (make_move b m).1 depth true j)
            legal_moves ⊤ i

/-- Deterministic alpha-beta loop (maximizing), for the jitter-free
variant of the search. -/
def abMaxLoop (f : Move → Score → Score → Score) (beta : Score) :
    List Move → Score → Score → Score
  | [], max_eval, _ => max_eval
  | m :: rest, max_eval, alpha =>
      let s := f m alpha beta
      let max_eval' := max max_eval s
      let alpha' := max alpha s
      if beta ≤ alpha' then max_eval' else abMaxLoop f beta rest max_eval' alpha'

/-- Deterministic alpha-beta loop (minimizing). -/
def abMinLoop (f : Move → Score → Score → Score) (alpha : Score) :
    List Move → Score → Score → Score
  | [], min_eval, _ => min_eval
  | m :: rest, min_eval, beta =>
      let s := f m alpha beta
      let min_eval' := min min_eval s
      let beta' := min beta s
      if beta' ≤ alpha then min_eval' else abMinLoop f alpha rest min_eval' beta'

/-- `MinimaxEngine.minimax` with the random perturbation fixed to `0`
(deterministic evaluation). -/
def minimaxD : MinichessBoard → ℕ → Score → Score → Bool → Score
  | b, 0, _, _, _ => qs (evaluate_positionD b)
  | b, depth + 1, alpha, beta, maximizing =>
      if is_game_over b then qs (evaluate_positionD b)
      else
        let legal_moves := order_moves b (generate_legal_moves b)
        if maximizing then
          abMaxLoop (fun m a bt => minimaxD (make_move b m).1 depth a bt false)
            beta legal_moves ⊥ alpha
        else
          abMinLoop (fun m a bt => minimaxD (make_move b m).1 depth a bt true)
            alpha legal_moves ⊤ beta

/-- Modelled from the spec: plain minimax (no pruning) with the random
perturbation fixed to `0`. -/
def plain_minimaxD : MinichessBoard → ℕ → Bool → Score
  | b, 0, _ => qs (evaluate_positionD b)
  | b, depth + 1, maximizing =>
      if is_game_over b then qs (evaluate_positionD b)
      else
        let legal_moves := order_moves b (generate_legal_moves b)
        if maximizing then
          legal_moves.foldl (fun acc m => max acc (plain_minimaxD (make_move b m).1 depth false)) ⊥
        else
          legal_moves.foldl (fun acc m => min acc (plain_minimaxD (make_move b m).1 depth true)) ⊤

/-! ## Strategy engines' `get_move` -/

/-- `random.choice` with an explicit selector index. -/
def random_choice {α : Type} (l : List α) (k : ℕ) : Option α :=
  l.get? (k % l.length)

/-- `RandomEngine.get_move`. -/
def random_get_move (b : MinichessBoard) (k : ℕ) : Option Move :=
  let legal_moves := generate_legal_moves b
  if legal_moves.isEmpty then none
  else random_choice legal_moves k

/-- `max()` over a nonempty list (Python raises on an empty list; all call
sites guard for non-emptiness). -/
def pythonMax : List ℚ → ℚ
  | [] => 0
  | x :: xs => xs.foldl max x

/-- `GreedyEngine.evaluate_move_delta`: material delta from the mover's
perspective plus center and pawn-advancement bonuses. -/
def evaluate_move_delta (b : MinichessBoard) (m : Move) : ℚ :=
  let side_to_move := b.turn
  let before := material_eval b.core
  let after := material_eval (make_move b m).1.core
  let delta := after - before
  let delta := if side_to_move = Color.black then -delta else delta
  let center_squares : List (ℤ × ℤ) :=
    if b.core.variant = "4x4" then [(1, 1), (1, 2), (2, 1), (2, 2)] else [(2, 1), (2, 2)]
  let positional_bonus : ℚ := if m.to_pos ∈ center_squares then 3 / 20 else 0
  let positional_bonus :=
    if m.piece.type = PieceType.pawn then
      if side_to_move = Color.white then
        positional_bonus + (m.to_pos.1 : ℚ) * (1 / 10)
      else
        positional_bonus + ((b.core.rows : ℚ) - 1 - (m.to_pos.1 : ℚ)) * (1 / 10)
    else positional_bonus
  delta + positional_bonus

/-- `GreedyEngine.get_move`. -/
def greedy_get_move (b : MinichessBoard) (k : ℕ) : Option Move :=
  let legal_moves := generate_legal_moves b
  if legal_moves.isEmpty then none
  else
    let move_scores := legal_moves.map (fun m => (m, evaluate_move_delta b m))
    let best_score := pythonMax (move_scores.map Prod.snd)
    let best_moves := (move_scores.filter (fun p => p.2 = best_score)).map Prod.fst
    random_choice best_moves k

/-- Root loop of `MinimaxEngine.get_move`, White to move (maximizing,
strict improvement `score > best_score`). -/
def rootMaxLoop (jit : ℕ → ℚ) (b : MinichessBoard) (d : ℕ) :
    List Move → Option Move → Score → ℕ → Option Move × ℕ
  | [], best_move, _, i => (best_move, i)
  | m :: rest, best_move, best_score, i =>
      let r := minimax jit (make_move b m).1 d ⊥ ⊤ false i
      if best_score < r.1 then rootMaxLoop jit b d rest (some m) r.1 r.2
      else rootMaxLoop jit b d rest best_move best_score r.2

/-- Root loop of `MinimaxEngine.get_move`, Black to move (minimizing). -/
def rootMinLoop (jit : ℕ → ℚ) (b : MinichessBoard) (d : ℕ) :
    List Move → Option Move → Score → ℕ → Option Move × ℕ
  | [], best_move, _, i => (best_move, i)
  | m :: rest, best_move, best_score, i =>
      let r := minimax jit (make_move b m).1 d ⊥ ⊤ true i
      if r.1 < best_score then rootMinLoop jit b d rest (some m) r.1 r.2
      else rootMinLoop jit b d rest best_move best_score r.2

/-- `MinimaxEngine.get_move` with configured depth `depth` (the engine
recurses at `depth - 1`). -/
def minimax_get_move (jit : ℕ → ℚ) (depth : ℕ) (b : MinichessBoard) (i : ℕ) :
    Option Move × ℕ :=
  let legal_moves := generate_legal_moves b
  if legal_moves.isEmpty then (none, i)
  else
    let maximizing := b.turn = Color.white
    if maximizing then rootMaxLoop jit b (depth - 1) legal_moves none ⊥ i
    else rootMinLoop jit b (depth - 1) legal_moves none ⊤ i

/-! ## Concrete boards for witnesses and counterexamples -/

/-- Fallback board for `Option.getD` (never actually used: the variants
below are known). -/
def emptyBoard : MinichessBoard :=
  ⟨⟨"", false, 0, 0, []⟩, Color.white, [], 1, 0⟩

/-- The initial 4x4 Silverman board. -/
def init4x4 : MinichessBoard := (mkBoard "4x4").getD emptyBoard

/-- The initial 4x5 Silverman board. -/
def init4x5 : MinichessBoard := (mkBoard "4x5").getD emptyBoard

/-- A concrete pseudo-random jitter stream, confined (see
`jitCex_within_uniform_range`) to the interval `[-0.001, 0.001]` that
`random.uniform(-0.001, 0.001)` draws from. -/
def jitCex : ℕ → ℚ := fun n => (((n * 37) % 101 : ℕ) - (50 : ℚ)) / 1000000

/-- The capture 1b2xc3 on the initial 4x4 board. -/
def mCex : Move :=
  Move.mk (1, 1) (2, 2) (Piece.mk PieceType.pawn Color.white)
    (some (Piece.mk PieceType.pawn Color.black))

/-- The position after 1b2xc3: Black to move.  Reached by one legal move
from the initial 4x4 position (see `C4_pruning_changes_score_with_jitter`). -/
def cexBoard : MinichessBoard := (make_move init4x4 mCex).1

/-! ## Heap model of the Python lists

The pure embedding above cannot express aliasing.  To settle the claims
about `copy` (structural independence) and about the in-place
mutate-and-restore discipline of `generate_legal_moves`, the mutable
Python lists are modelled explicitly: a heap maps row-cell addresses to
row lists and history-cell addresses to move lists, and a board object
holds addresses instead of the lists themselves.  Piece values are
immutable in both Python (never mutated, only replaced) and the model. -/

/-- The mutable store: row lists and history lists by address, plus an
allocation bound (`next` is above every address in use). -/
@[ext]
structure Heap where
  rowCells : ℕ → List (Option Piece)
  histCells : ℕ → List Move
  next : ℕ

/-- A board object in the heap model: the scalar attributes by value, the
grid as a list of row-cell addresses, the history as a cell address. -/
structure HBoard where
  variant : String
  pawn_double_move : Bool
  rows : ℕ
  cols : ℕ
  rowRefs : List ℕ
  histRef : ℕ
  turn : Color
  fullmove_number : ℕ
  halfmove_clock : ℕ

def writeRow (h : Heap) (a : ℕ) (l : List (Option Piece)) : Heap :=
  { h with rowCells := Function.update h.rowCells a l }

def writeHist (h : Heap) (a : ℕ) (l : List Move) : Heap :=
  { h with histCells := Function.update h.histCells a l }

/-- `self.board[r][c]` in the heap model. -/
def hCellGet (h : Heap) (hb : HBoard) (r c : ℤ) : Option Piece :=
  (h.rowCells (hb.rowRefs.getD r.toNat 0)).getD c.toNat none

/-- `self.board[r][c] = p` in the heap model. -/
def hCellSet (h : Heap) (hb : HBoard) (r c : ℤ) (p : Option Piece) : Heap :=
  let a := hb.rowRefs.getD r.toNat 0
  writeRow h a ((h.rowCells a).set c.toNat p)

/-- Read back the observable `MinichessBoard` state of a heap board. -/
def observe (h : Heap) (hb : HBoard) : MinichessBoard :=
  { core := { variant := hb.variant, pawn_double_move := hb.pawn_double_move,
              rows := hb.rows, cols := hb.cols,
              board := hb.rowRefs.map h.rowCells }
    turn := hb.turn
    move_history := h.histCells hb.histRef
    fullmove_number := hb.fullmove_number
    halfmove_clock := hb.halfmove_clock }

/-- `set_piece` in the heap model: bounds-checked in-place cell write. -/
def set_pieceOp (h : Heap) (hb : HBoard) (r c : ℤ) (p : Option Piece) : Heap :=
  if is_valid_pos (observe h hb).core r c then hCellSet h hb r c p else h

/-- `make_move` in the heap model: the two grid writes in source order,
the scalar attribute updates, and the in-place history append. -/
def make_moveOp (h : Heap) (hb : HBoard) (m : Move) : Heap × HBoard × Bool :=
  let moved := hCellGet h hb m.from_pos.1 m.from_pos.2
  let h1 := hCellSet h hb m.to_pos.1 m.to_pos.2 moved
  let h2 := hCellSet h1 hb m.from_pos.1 m.from_pos.2 none
  let h3 := writeHist h2 hb.histRef (h2.histCells hb.histRef ++ [m])
  (h3,
   { hb with
      halfmove_clock :=
        if m.captured.isSome || m.piece.type = PieceType.pawn then 0
        else hb.halfmove_clock + 1
      fullmove_number :=
        if hb.turn = Color.black then hb.fullmove_number + 1 else hb.fullmove_number
      turn := if hb.turn = Color.white then Color.black else Color.white },
   true)

/-- `copy` in the heap model: a fresh list of fresh row cells holding
`[[self.board[r][c] for c in range(self.cols)] for r in range(self.rows)]`,
and a fresh history cell holding `self.move_history.copy()`; the
constructor's transient allocations are not modelled (they are unreachable
after the attribute rebinds). -/
def copyOp (h : Heap) (hb : HBoard) : Heap × HBoard :=
  let histRef' := h.next + hb.rows
  ({ rowCells := fun a =>
        if h.next ≤ a ∧ a < h.next + hb.rows then
          (List.range hb.cols).map (fun c => hCellGet h hb ((a - h.next : ℕ) : ℤ) (c : ℤ))
        else h.rowCells a
     histCells := Function.update h.histCells histRef' (h.histCells hb.histRef)
     next := h.next + hb.rows + 1 },
   { hb with rowRefs := (List.range hb.rows).map (fun r => h.next + r)
             histRef := histRef' })

/-- A mutation of the board object: `make_move` or `set_piece`. -/
inductive MutOp where
  | mk_move (m : Move)
  | set_p (r c : ℤ) (p : Option Piece)

/-- Apply a sequence of mutations to a heap board. -/
def applyOps : Heap → HBoard → List MutOp → Heap × HBoard
  | h, hb, [] => (h, hb)
  | h, hb, MutOp.mk_move m :: rest =>
      let r := make_moveOp h hb m
      applyOps r.1 r.2.1 rest
  | h, hb, MutOp.set_p r c p :: rest =>
      applyOps (set_pieceOp h hb r c p) hb rest

/-- `_move_leaves_king_in_check` in the heap model: save the target cell,
perform the two in-place writes, query `is_in_check` on the mutated state,
then restore the two cells in source order. -/
def mlkicOp (h : Heap) (hb : HBoard) (m : Move) : Heap × Bool :=
  let saved := hCellGet h hb m.to_pos.1 m.to_pos.2
  let h1 := hCellSet h hb m.to_pos.1 m.to_pos.2 (hCellGet h hb m.from_pos.1 m.from_pos.2)
  let h2 := hCellSet h1 hb m.from_pos.1 m.from_pos.2 none
  let in_check := is_in_check (observe h2 hb).core m.piece.color
  let h3 := hCellSet h2 hb m.from_pos.1 m.from_pos.2 (hCellGet h2 hb m.to_pos.1 m.to_pos.2)
  let h4 := hCellSet h3 hb m.to_pos.1 m.to_pos.2 saved
  (h4, in_check)

/-- `generate_legal_moves` in the heap model: collect pseudo-legal moves
from the current state, then filter them through the in-place
mutate-and-restore legality check. -/
def legalMovesOp (h : Heap) (hb : HBoard) : Heap × List Move :=
  (allPseudoMoves (observe h hb)).foldl
    (fun acc m =>
      let r := mlkicOp acc.1 hb m
      (r.1, if r.2 then acc.2 else acc.2 ++ [m]))
    (h, [])

/-- Well-formedness of a heap board: addresses are allocated, the grid has
`rows` distinct row cells, each of length `cols`. -/
def WFB (h : Heap) (hb : HBoard) : Prop :=
  (∀ a ∈ hb.rowRefs, a < h.next) ∧ hb.histRef < h.next ∧
    hb.rowRefs.length = hb.rows ∧ hb.rowRefs.Nodup ∧
    (∀ a ∈ hb.rowRefs, (h.rowCells a).length = hb.cols)

/-- Bounds requirement on a mutation: `make_move` only ever receives
on-board squares (Python would raise on an out-of-range index). -/
def opInBounds (hb : HBoard) : MutOp → Prop
  | MutOp.mk_move m =>
      (0 ≤ m.from_pos.1 ∧ m.from_pos.1 < (hb.rows : ℤ) ∧
        0 ≤ m.from_pos.2 ∧ m.from_pos.2 < (hb.cols : ℤ)) ∧
      (0 ≤ m.to_pos.1 ∧ m.to_pos.1 < (hb.rows : ℤ) ∧
        0 ≤ m.to_pos.2 ∧ m.to_pos.2 < (hb.cols : ℤ))
  | MutOp.set_p _ _ _ => True

instance (h : Heap) (hb : HBoard) : Decidable (WFB h hb) := by
  unfold WFB
  infer_instance

instance (hb : HBoard) : (op : MutOp) → Decidable (opInBounds hb op)
  | MutOp.mk_move m => by unfold opInBounds; infer_instance
  | MutOp.set_p r c p => by unfold opInBounds; infer_instance

/-- A concrete well-formed heap layout of the initial 4x4 board. -/
def heap4x4 : Heap :=
  { rowCells := fun a => ((setupGrid "4x4").getD []).getD a []
    histCells := fun _ => []
    next := 5 }

/-- The board object of `heap4x4`. -/
def hb4x4 : HBoard :=
  { variant := "4x4", pawn_double_move := false, rows := 4, cols := 4,
    rowRefs := [0, 1, 2, 3], histRef := 4, turn := Color.white,
    fullmove_number := 1, halfmove_clock := 0 }

/-! ## Helper lemmas -/

lemma mem_generate_legal_moves {b : MinichessBoard} {m : Move}
    (h : m ∈ generate_legal_moves b) :
    m ∈ allPseudoMoves b ∧ move_leaves_king_in_check b.core m = false := by
  have h' := List.mem_filter.mp h
  exact ⟨h'.1, by simpa using h'.2⟩

/-- The facts about a generated move needed below: it records the true
board content of its destination square in `captured`, carries the moving
piece and its origin, targets an on-board square, and actually moves. -/
def MoveFacts (bc : BoardCore) (row col : ℤ) (piece : Piece) (m : Move) : Prop :=
  m.piece = piece ∧ m.from_pos = (row, col) ∧
    m.captured = cellGet bc.board m.to_pos.1 m.to_pos.2 ∧
    is_valid_pos bc m.to_pos.1 m.to_pos.2 = true ∧
    m.to_pos ≠ (row, col)

lemma moveFacts_mk {bc : BoardCore} {row col tr tc : ℤ} {piece : Piece}
    (hcap : cellGet bc.board tr tc = cap)
    (hval : is_valid_pos bc tr tc = true) (hne : (tr, tc) ≠ (row, col)) :
    MoveFacts bc row col piece (Move.mk (row, col) (tr, tc) piece cap) := by
  exact ⟨rfl, rfl, hcap.symm, hval, hne⟩

lemma mem_rayWalk {bc : BoardCore} {row col : ℤ} {piece : Piece} {dr dc : ℤ}
    (hd : dr ≠ 0 ∨ dc ≠ 0) :
    ∀ {fuel : ℕ} {i : ℤ}, 1 ≤ i →
      ∀ m ∈ rayWalk bc row col piece dr dc fuel i, MoveFacts bc row col piece m := by
  intro fuel
  induction fuel with
  | zero => intro i _ m hm; simp [rayWalk] at hm
  | succ fuel ih =>
      intro i hi m hm
      have hne : (row + dr * i, col + dc * i) ≠ (row, col) := by
        intro hEq
        have h1 : row + dr * i = row := congrArg Prod.fst hEq
        have h2 : col + dc * i = col := congrArg Prod.snd hEq
        have hi0 : i ≠ 0 := by omega
        rcases hd with hdr | hdc
        · exact hdr (by
            have : dr * i = 0 := by omega
            rcases mul_eq_zero.mp this with h | h
            · exact h
            · exact absurd h hi0)
        · exact hdc (by
            have : dc * i = 0 := by omega
            rcases mul_eq_zero.mp this with h | h
            · exact h
            · exact absurd h hi0)
      rw [rayWalk] at hm
      by_cases hv : is_valid_pos bc (row + dr * i) (col + dc * i) = true
      · rw [if_pos hv] at hm
        split at hm
        next hcell =>
          rcases List.mem_cons.mp hm with hm | hm
          · subst hm; exact moveFacts_mk hcell hv hne
          · exact ih (by omega) m hm
        next target hcell =>
          by_cases hcol : target.color ≠ piece.color
          · rw [if_pos hcol] at hm
            rcases List.mem_singleton.mp hm with rfl
            exact moveFacts_mk hcell hv hne
          · rw [if_neg hcol] at hm
            simp at hm
      · rw [if_neg hv] at hm
        simp at hm

lemma mem_slideMoves {bc : BoardCore} {row col : ℤ} {piece : Piece}
    {dirs : List (ℤ × ℤ)} (hd : ∀ d ∈ dirs, d.1 ≠ 0 ∨ d.2 ≠ 0) :
    ∀ m ∈ slideMoves bc row col piece dirs, MoveFacts bc row col piece m := by
  intro m hm
  rcases List.mem_flatMap.mp hm with ⟨d, hdmem, hmd⟩
  exact mem_rayWalk (hd d hdmem) le_rfl m hmd

lemma mem_leapMoves {bc : BoardCore} {row col : ℤ} {piece : Piece}
    {offsets : List (ℤ × ℤ)} (hd : ∀ d ∈ offsets, d.1 ≠ 0 ∨ d.2 ≠ 0) :
    ∀ m ∈ leapMoves bc row col piece offsets, MoveFacts bc row col piece m := by
  intro m hm
  rcases List.mem_flatMap.mp hm with ⟨d, hdmem, hmd⟩
  simp only [leapMoves] at hmd
  have hne : (row + d.1, col + d.2) ≠ (row, col) := by
    intro hEq
    have h1 : row + d.1 = row := congrArg Prod.fst hEq
    have h2 : col + d.2 = col := congrArg Prod.snd hEq
    rcases hd d hdmem with h | h
    · exact h (by omega)
    · exact h (by omega)
  by_cases hv : is_valid_pos bc (row + d.1) (col + d.2) = true
  · rw [if_pos hv] at hmd
    by_cases hc : ((cellGet bc.board (row + d.1) (col + d.2)).isNone ||
        ((cellGet bc.board (row + d.1) (col + d.2)).elim false
          (fun t => t.color ≠ piece.color))) = true
    · rw [if_pos hc] at hmd
      rcases List.mem_singleton.mp hmd with rfl
      exact moveFacts_mk rfl hv hne
    · rw [if_neg hc] at hmd
      simp at hmd
  · rw [if_neg hv] at hmd
    simp at hmd

lemma mem_generate_pawn_moves {bc : BoardCore} {row col : ℤ} {piece : Piece} :
    ∀ m ∈ generate_pawn_moves bc row col piece, MoveFacts bc row col piece m := by
  intro m hm
  unfold generate_pawn_moves at hm
  set direction : ℤ := if piece.color = Color.white then 1 else -1 with hdir
  have hdir0 : direction ≠ 0 := by
    rw [hdir]; split <;> omega
  rcases List.mem_append.mp hm with hfw | hcap
  · -- forward (and double) pushes
    by_cases hv : (is_valid_pos bc (row + direction) col &&
        (cellGet bc.board (row + direction) col).isNone) = true
    · rw [if_pos hv] at hfw
      have hv1 := (Bool.and_eq_true _ _).mp hv
      have hcell1 : cellGet bc.board (row + direction) col = none :=
        Option.isNone_iff_eq_none.mp hv1.2
      rcases List.mem_cons.mp hfw with rfl | hdbl
      · exact moveFacts_mk hcell1 hv1.1 (by
          intro hEq
          have := congrArg Prod.fst hEq
          simp at this
          omega)
      · -- the double push
        by_cases hpd : bc.pawn_double_move
        · rw [if_pos hpd] at hdbl
          by_cases hsr : row = (if bc.variant = "4x5" ∨ bc.variant = "5x6" then
              (if piece.color = Color.white then 1 else (bc.rows : ℤ) - 2)
            else if bc.variant = "5x5" then
              (if piece.color = Color.white then 1 else 3)
            else -1)
          · rw [if_pos hsr] at hdbl
            by_cases hv2 : (is_valid_pos bc (row + 2 * direction) col &&
                (cellGet bc.board (row + 2 * direction) col).isNone) = true
            · rw [if_pos hv2] at hdbl
              have hv2' := (Bool.and_eq_true _ _).mp hv2
              have hcell2 : cellGet bc.board (row + 2 * direction) col = none :=
                Option.isNone_iff_eq_none.mp hv2'.2
              rcases List.mem_singleton.mp hdbl with rfl
              exact moveFacts_mk hcell2 hv2'.1 (by
                intro hEq
                have := congrArg Prod.fst hEq
                simp at this
                omega)
            · rw [if_neg hv2] at hdbl; simp at hdbl
          · rw [if_neg hsr] at hdbl; simp at hdbl
        · rw [if_neg hpd] at hdbl; simp at hdbl
    · rw [if_neg hv] at hfw; simp at hfw
  · -- diagonal captures
    rcases List.mem_flatMap.mp hcap with ⟨dc, hdcmem, hmd⟩
    by_cases hv : is_valid_pos bc (row + direction) (col + dc) = true
    · rw [if_pos hv] at hmd
      split at hmd
      next target hcell =>
        by_cases hcol : target.color ≠ piece.color
        · rw [if_pos hcol] at hmd
          rcases List.mem_singleton.mp hmd with rfl
          exact moveFacts_mk hcell hv (by
            intro hEq
            have := congrArg Prod.fst hEq
            simp at this
            omega)
        · rw [if_neg hcol] at hmd; simp at hmd
      next hcell => simp at hmd
    · rw [if_neg hv] at hmd; simp at hmd

lemma mem_generate_piece_moves {bc : BoardCore} {row col : ℤ} {piece : Piece} :
    ∀ m ∈ generate_piece_moves bc row col piece, MoveFacts bc row col piece m := by
  intro m hm
  unfold generate_piece_moves at hm
  cases hp : piece.type <;> rw [hp] at hm
  case pawn => exact mem_generate_pawn_moves m hm
  case rook => exact mem_slideMoves (by decide) m hm
  case bishop => exact mem_slideMoves (by decide) m hm
  case knight => exact mem_leapMoves (by decide) m hm
  case queen => exact mem_slideMoves (by decide) m hm
  case king => exact mem_leapMoves (by decide) m hm

/-- Facts about every pseudo-legal move of the side to move. -/
lemma mem_allPseudoMoves {b : MinichessBoard} {m : Move}
    (hm : m ∈ allPseudoMoves b) :
    cellGet b.core.board m.from_pos.1 m.from_pos.2 = some m.piece ∧
      m.piece.color = b.turn ∧
      m.captured = cellGet b.core.board m.to_pos.1 m.to_pos.2 ∧
      is_valid_pos b.core m.to_pos.1 m.to_pos.2 = true ∧
      m.to_pos ≠ m.from_pos := by
  rcases List.mem_flatMap.mp hm with ⟨rc, _, hmrc⟩
  split at hmrc
  next piece hcell =>
    by_cases hc : piece.color = b.turn
    · rw [if_pos hc] at hmrc
      obtain ⟨hpiece, hfrom, hcap, hval, hne⟩ := mem_generate_piece_moves m hmrc
      refine ⟨?_, ?_, hcap, hval, ?_⟩
      · rw [hfrom]; rw [hpiece]; exact hcell
      · rw [hpiece]; exact hc
      · rw [hfrom]; exact hne
    · rw [if_neg hc] at hmrc; simp at hmrc
  next hcell => simp at hmrc

/-! ### Lemmas about scores, ordering and the search loops -/

lemma qs_bot_lt (q : ℚ) : (⊥ : Score) < qs q := WithBot.bot_lt_coe _

lemma qs_lt_top (q : ℚ) : qs q < (⊤ : Score) := by
  have h : ((q : WithTop ℚ) : Score) < ((⊤ : WithTop ℚ) : Score) :=
    WithBot.coe_lt_coe.mpr (WithTop.coe_lt_top q)
  simpa [qs] using h

lemma mem_order_moves {b : MinichessBoard} {l : List Move} {m : Move} :
    m ∈ order_moves b l ↔ m ∈ l :=
  (List.perm_insertionSort _ l).mem_iff

lemma order_moves_ne_nil {b : MinichessBoard} {l : List Move} (h : l ≠ []) :
    order_moves b l ≠ [] := by
  intro hc
  apply h
  have hperm := List.perm_insertionSort (fun a c => move_priority b a ≤ move_priority b c) l
  rw [order_moves] at hc
  rw [hc] at hperm
  exact hperm.symm.eq_nil

/-- If there is no legal move, the game is over (checkmate or stalemate). -/
lemma game_over_of_no_legal_moves {b : MinichessBoard}
    (h : generate_legal_moves b = []) : is_game_over b = true := by
  by_cases hc : is_in_check b.core b.turn = true <;>
    simp [is_game_over, is_checkmate, is_stalemate, hc, h]

lemma abMaxLoopT_fst_bounds {f : Move → Score → Score → ℕ → Score × ℕ} (beta : Score)
    (hf : ∀ m a bt j, ⊥ < (f m a bt j).1 ∧ (f m a bt j).1 < ⊤) :
    ∀ (ms : List Move) (acc alpha : Score) (i : ℕ), acc < ⊤ →
      (abMaxLoopT f beta ms acc alpha i).1 < ⊤ ∧
        (⊥ < acc ∨ ms ≠ [] → ⊥ < (abMaxLoopT f beta ms acc alpha i).1) := by
  intro ms
  induction ms with
  | nil =>
      intro acc alpha i hacc
      refine ⟨hacc, ?_⟩
      rintro (h | h)
      · exact h
      · exact absurd rfl h
  | cons m rest ih =>
      intro acc alpha i hacc
      rw [abMaxLoopT]
      have hfm := hf m alpha beta i
      have hacc' : max acc (f m alpha beta i).1 < ⊤ := max_lt hacc hfm.2
      have hpos' : ⊥ < max acc (f m alpha beta i).1 :=
        lt_of_lt_of_le hfm.1 (le_max_right _ _)
      split
      · exact ⟨hacc', fun _ => hpos'⟩
      · have := ih (max acc (f m alpha beta i).1)
          (max alpha (f m alpha beta i).1) (f m alpha beta i).2 hacc'
        exact ⟨this.1, fun _ => this.2 (Or.inl hpos')⟩

lemma abMinLoopT_fst_bounds {f : Move → Score → Score → ℕ → Score × ℕ} (alpha : Score)
    (hf : ∀ m a bt j, ⊥ < (f m a bt j).1 ∧ (f m a bt j).1 < ⊤) :
    ∀ (ms : List Move) (acc beta : Score) (i : ℕ), ⊥ < acc →
      ⊥ < (abMinLoopT f alpha ms acc beta i).1 ∧
        (acc < ⊤ ∨ ms ≠ [] → (abMinLoopT f alpha ms acc beta i).1 < ⊤) := by
  intro ms
  induction ms with
  | nil =>
      intro acc beta i hacc
      refine ⟨hacc, ?_⟩
      rintro (h | h)
      · exact h
      · exact absurd rfl h
  | cons m rest ih =>
      intro acc beta i hacc
      rw [abMinLoopT]
      have hfm := hf m alpha beta i
      have hacc' : ⊥ < min acc (f m alpha beta i).1 := lt_min hacc hfm.1
      have hlt' : min acc (f m alpha beta i).1 < ⊤ :=
        lt_of_le_of_lt (min_le_right _ _) hfm.2
      split
      · exact ⟨hacc', fun _ => hlt'⟩
      · have := ih (min acc (f m alpha beta i).1)
          (min beta (f m alpha beta i).1) (f m alpha beta i).2 hacc'
        exact ⟨this.1, fun _ => this.2 (Or.inl hlt')⟩

/-- The alpha-beta score is always strictly between `-inf` and `inf`. -/
lemma minimax_fst_bounds (jit : ℕ → ℚ) :
    ∀ (d : ℕ) (b : MinichessBoard) (alpha beta : Score) (mx : Bool) (i : ℕ),
      ⊥ < (minimax jit b d alpha beta mx i).1 ∧ (minimax jit b d alpha beta mx i).1 < ⊤ := by
  intro d
  induction d with
  | zero => intro b alpha beta mx i; exact ⟨qs_bot_lt _, qs_lt_top _⟩
  | succ d ih =>
      intro b alpha beta mx i
      rw [minimax]
      by_cases hgo : is_game_over b = true
      · simp only [hgo, if_true]
        exact ⟨qs_bot_lt _, qs_lt_top _⟩
      · simp only [hgo, if_false]
        have hleg : generate_legal_moves b ≠ [] := by
          intro hnil
          exact hgo (game_over_of_no_legal_moves hnil)
        have hms : order_moves b (generate_legal_moves b) ≠ [] := order_moves_ne_nil hleg
        cases mx with
        | true =>
            simp only [if_true]
            have h := abMaxLoopT_fst_bounds beta
              (fun m a bt j => ih (make_move b m).1 a bt false j)
              (order_moves b (generate_legal_moves b)) ⊥ alpha i bot_lt_top
            exact ⟨h.2 (Or.inr hms), h.1⟩
        | false =>
            simp only [Bool.false_eq_true, if_false]
            have h := abMinLoopT_fst_bounds alpha
              (fun m a bt j => ih (make_move b m).1 a bt true j)
              (order_moves b (generate_legal_moves b)) ⊤ beta i bot_lt_top
            exact ⟨h.1, h.2 (Or.inr hms)⟩

lemma rootMaxLoop_result (jit : ℕ → ℚ) (b : MinichessBoard) (d : ℕ) :
    ∀ (ms : List Move) (best : Option Move) (bs : Score) (i : ℕ),
      (rootMaxLoop jit b d ms best bs i).1 = best ∨
        ∃ m ∈ ms, (rootMaxLoop jit b d ms best bs i).1 = some m := by
  intro ms
  induction ms with
  | nil => intro best bs i; exact Or.inl rfl
  | cons m rest ih =>
      intro best bs i
      rw [rootMaxLoop]
      split
      · rcases ih (some m) (minimax jit (make_move b m).1 d ⊥ ⊤ false i).1
            (minimax jit (make_move b m).1 d ⊥ ⊤ false i).2 with h | ⟨m', hm', h⟩
        · exact Or.inr ⟨m, List.mem_cons_self m rest, h⟩
        · exact Or.inr ⟨m', List.mem_cons_of_mem m hm', h⟩
      · rcases ih best bs (minimax jit (make_move b m).1 d ⊥ ⊤ false i).2 with h | ⟨m', hm', h⟩
        · exact Or.inl h
        · exact Or.inr ⟨m', List.mem_cons_of_mem m hm', h⟩

lemma rootMinLoop_result (jit : ℕ → ℚ) (b : MinichessBoard) (d : ℕ) :
    ∀ (ms : List Move) (best : Option Move) (bs : Score) (i : ℕ),
      (rootMinLoop jit b d ms best bs i).1 = best ∨
        ∃ m ∈ ms, (rootMinLoop jit b d ms best bs i).1 = some m := by
  intro ms
  induction ms with
  | nil => intro best bs i; exact Or.inl rfl
  | cons m rest ih =>
      intro best bs i
      rw [rootMinLoop]
      split
      · rcases ih (some m) (minimax jit (make_move b m).1 d ⊥ ⊤ true i).1
            (minimax jit (make_move b m).1 d ⊥ ⊤ true i).2 with h | ⟨m', hm', h⟩
        · exact Or.inr ⟨m, List.mem_cons_self m rest, h⟩
        · exact Or.inr ⟨m', List.mem_cons_of_mem m hm', h⟩
      · rcases ih best bs (minimax jit (make_move b m).1 d ⊥ ⊤ true i).2 with h | ⟨m', hm', h⟩
        · exact Or.inl h
        · exact Or.inr ⟨m', List.mem_cons_of_mem m hm', h⟩

lemma rootMaxLoop_some_mem (jit : ℕ → ℚ) (b : MinichessBoard) (d : ℕ)
    {ms : List Move} (hms : ms ≠ []) (i : ℕ) :
    ∃ m ∈ ms, (rootMaxLoop jit b d ms none ⊥ i).1 = some m := by
  obtain ⟨m, rest, rfl⟩ := List.exists_cons_of_ne_nil hms
  rw [rootMaxLoop]
  rw [if_pos (minimax_fst_bounds jit d (make_move b m).1 ⊥ ⊤ false i).1]
  rcases rootMaxLoop_result jit b d rest (some m)
      (minimax jit (make_move b m).1 d ⊥ ⊤ false i).1
      (minimax jit (make_move b m).1 d ⊥ ⊤ false i).2 with h | ⟨m', hm', h⟩
  · exact ⟨m, List.mem_cons_self m rest, h⟩
  · exact ⟨m', List.mem_cons_of_mem m hm', h⟩

lemma rootMinLoop_some_mem (jit : ℕ → ℚ) (b : MinichessBoard) (d : ℕ)
    {ms : List Move} (hms : ms ≠ []) (i : ℕ) :
    ∃ m ∈ ms, (rootMinLoop jit b d ms none ⊤ i).1 = some m := by
  obtain ⟨m, rest, rfl⟩ := List.exists_cons_of_ne_nil hms
  rw [rootMinLoop]
  rw [if_pos (minimax_fst_bounds jit d (make_move b m).1 ⊥ ⊤ true i).2]
  rcases rootMinLoop_result jit b d rest (some m)
      (minimax jit (make_move b m).1 d ⊥ ⊤ true i).1
      (minimax jit (make_move b m).1 d ⊥ ⊤ true i).2 with h | ⟨m', hm', h⟩
  · exact ⟨m, List.mem_cons_self m rest, h⟩
  · exact ⟨m', List.mem_cons_of_mem m hm', h⟩

lemma foldl_max_mem (xs : List ℚ) : ∀ x : ℚ, xs.foldl max x ∈ x :: xs := by
  induction xs with
  | nil => intro x; exact List.mem_singleton.mpr rfl
  | cons y ys ih =>
      intro x
      show List.foldl max (max x y) ys ∈ x :: y :: ys
      have h := ih (max x y)
      rcases List.mem_cons.mp h with h1 | h2
      · rw [h1]
        rcases max_choice x y with hxy | hxy <;> rw [hxy]
        · exact List.mem_cons_self x (y :: ys)
        · exact List.mem_cons_of_mem x (List.mem_cons_self y ys)
      · exact List.mem_cons_of_mem x (List.mem_cons_of_mem y h2)

lemma pythonMax_mem {l : List ℚ} (h : l ≠ []) : pythonMax l ∈ l := by
  cases l with
  | nil => exact absurd rfl h
  | cons x xs => exact foldl_max_mem xs x

lemma random_choice_mem {α : Type} {l : List α} (k : ℕ) (h : l ≠ []) :
    ∃ m ∈ l, random_choice l k = some m := by
  have hlen : 0 < l.length := List.length_pos.mpr h
  have hk : k % l.length < l.length := Nat.mod_lt _ hlen
  exact ⟨l.get ⟨k % l.length, hk⟩, List.get_mem l _ hk, List.get?_eq_get hk⟩

/-- Whenever there is a legal move, the greedy engine returns one. -/
lemma greedy_some_mem {b : MinichessBoard} (k : ℕ)
    (hleg : generate_legal_moves b ≠ []) :
    ∃ m ∈ generate_legal_moves b, greedy_get_move b k = some m := by
  unfold greedy_get_move
  rw [if_neg (by simp [List.isEmpty_eq_false.mpr hleg])]
  have hms_ne : (generate_legal_moves b).map (fun m => (m, evaluate_move_delta b m)) ≠ [] := by
    simpa using hleg
  have hscores_ne :
      ((generate_legal_moves b).map (fun m => (m, evaluate_move_delta b m))).map Prod.snd
        ≠ [] := by
    simpa using hleg
  obtain ⟨p, hp, hp2⟩ := List.mem_map.mp (pythonMax_mem hscores_ne)
  have hpf : p ∈ ((generate_legal_moves b).map
      (fun m => (m, evaluate_move_delta b m))).filter
        (fun q => q.2 = pythonMax (((generate_legal_moves b).map
          (fun m => (m, evaluate_move_delta b m))).map Prod.snd)) :=
    List.mem_filter.mpr ⟨hp, by simp [hp2]⟩
  have hbm_ne : (((generate_legal_moves b).map (fun m => (m, evaluate_move_delta b m))).filter
      (fun q => q.2 = pythonMax (((generate_legal_moves b).map
        (fun m => (m, evaluate_move_delta b m))).map Prod.snd))).map Prod.fst ≠ [] := by
    intro hc
    rw [List.map_eq_nil_iff] at hc
    rw [hc] at hpf
    exact absurd hpf (List.not_mem_nil p)
  obtain ⟨m, hm, hrc⟩ := random_choice_mem k hbm_ne
  refine ⟨m, ?_, hrc⟩
  obtain ⟨q, hq, rfl⟩ := List.mem_map.mp hm
  obtain ⟨m₀, hm₀, hqeq⟩ := List.mem_map.mp (List.mem_filter.mp hq).1
  rw [← hqeq]
  exact hm₀

/-! ### Alpha-beta versus plain minimax (deterministic evaluation) -/

lemma le_foldl_max (v : Move → Score) :
    ∀ (l : List Move) (c : Score), c ≤ l.foldl (fun a m => max a (v m)) c := by
  intro l
  induction l with
  | nil => intro c; exact le_rfl
  | cons m rest ih => intro c; exact le_trans (le_max_left c (v m)) (ih (max c (v m)))

lemma foldl_min_le (v : Move → Score) :
    ∀ (l : List Move) (c : Score), l.foldl (fun a m => min a (v m)) c ≤ c := by
  intro l
  induction l with
  | nil => intro c; exact le_rfl
  | cons m rest ih => intro c; exact le_trans (ih (min c (v m))) (min_le_left c (v m))

lemma foldl_max_decomp (v : Move → Score) :
    ∀ (l : List Move) (c : Score),
      l.foldl (fun a m => max a (v m)) c =
        max c (l.foldl (fun a m => max a (v m)) ⊥) := by
  intro l
  induction l with
  | nil => intro c; exact (max_eq_left bot_le).symm
  | cons m rest ih =>
      intro c
      rw [List.foldl_cons, List.foldl_cons, ih (max c (v m)),
        ih (max (⊥ : Score) (v m)), max_eq_right (bot_le : (⊥ : Score) ≤ v m), max_assoc]

lemma foldl_min_decomp (v : Move → Score) :
    ∀ (l : List Move) (c : Score),
      l.foldl (fun a m => min a (v m)) c =
        min c (l.foldl (fun a m => min a (v m)) ⊤) := by
  intro l
  induction l with
  | nil => intro c; exact (min_eq_left le_top).symm
  | cons m rest ih =>
      intro c
      rw [List.foldl_cons, List.foldl_cons, ih (min c (v m)),
        ih (min (⊤ : Score) (v m)), min_eq_right (le_top : v m ≤ (⊤ : Score)), min_assoc]

/-- Knuth-Moore induction, maximizing loop: under the invariant
`alpha = max alpha0 acc` and `alpha < beta`, the pruned loop and the plain
fold agree after clamping into `[alpha0, beta]`. -/
lemma abMaxLoop_clamp {f : Move → Score → Score → Score} {v : Move → Score}
    {beta alpha0 : Score}
    (hf : ∀ m a bt, a < bt → min bt (max a (f m a bt)) = min bt (max a (v m))) :
    ∀ (ms : List Move) (acc alpha : Score), alpha < beta → alpha = max alpha0 acc →
      min beta (max alpha0 (abMaxLoop f beta ms acc alpha)) =
        min beta (max alpha0 (ms.foldl (fun a m => max a (v m)) acc)) := by
  intro ms
  induction ms with
  | nil => intro acc alpha h1 h2; rfl
  | cons m rest ih =>
      intro acc alpha h1 h2
      rw [List.foldl_cons]
      show min beta (max alpha0
          (if beta ≤ max alpha (f m alpha beta)
           then max acc (f m alpha beta)
           else abMaxLoop f beta rest (max acc (f m alpha beta))
             (max alpha (f m alpha beta)))) = _
      have hcl := hf m alpha beta h1
      by_cases hbr : beta ≤ max alpha (f m alpha beta)
      · rw [if_pos hbr]
        have hsb : beta ≤ f m alpha beta := by
          rcases le_or_lt beta (f m alpha beta) with h | h
          · exact h
          · exact absurd hbr (not_le.mpr (max_lt h1 h))
        have hvm : beta ≤ v m := by
          rw [min_eq_left (le_trans hsb (le_max_right alpha _))] at hcl
          have hbm : beta ≤ max alpha (v m) := by
            rcases le_or_lt beta (max alpha (v m)) with h | h
            · exact h
            · rw [min_eq_right (le_of_lt h)] at hcl
              exact absurd hcl.symm (ne_of_lt h)
          rcases le_or_lt beta (v m) with h | h
          · exact h
          · exact absurd hbm (not_le.mpr (max_lt h1 h))
        have hL : min beta (max alpha0 (max acc (f m alpha beta))) = beta :=
          min_eq_left (le_trans hsb
            (le_trans (le_max_right acc _) (le_max_right alpha0 _)))
        have hR : min beta (max alpha0
            (rest.foldl (fun a m => max a (v m)) (max acc (v m)))) = beta :=
          min_eq_left (le_trans hvm (le_trans (le_trans (le_max_right acc _)
            (le_foldl_max v rest (max acc (v m)))) (le_max_right alpha0 _)))
        rw [hL, hR]
      · rw [if_neg hbr]
        push_neg at hbr
        have hstar : max alpha (f m alpha beta) = max alpha (v m) := by
          rw [min_eq_right (le_of_lt hbr)] at hcl
          rcases le_or_lt beta (max alpha (v m)) with h | h
          · rw [min_eq_left h] at hcl
            exact absurd hcl (ne_of_lt hbr)
          · rw [min_eq_right (le_of_lt h)] at hcl
            exact hcl
        have harg : max alpha (f m alpha beta) = max alpha0 (max acc (f m alpha beta)) := by
          rw [h2, max_assoc]
        have harg2 : max alpha (v m) = max alpha0 (max acc (v m)) := by
          rw [h2, max_assoc]
        rw [ih (max acc (f m alpha beta)) (max alpha (f m alpha beta)) hbr harg]
        rw [foldl_max_decomp v rest (max acc (f m alpha beta)),
          foldl_max_decomp v rest (max acc (v m))]
        rw [← max_assoc alpha0 (max acc (f m alpha beta)),
          ← max_assoc alpha0 (max acc (v m)), ← harg, ← harg2, hstar]

/-- Knuth-Moore induction, minimizing loop: under the invariant
`beta = min beta0 acc` and `alpha < beta`, the pruned loop and the plain
fold agree after clamping into `[alpha, beta0]`. -/
lemma abMinLoop_clamp {f : Move → Score → Score → Score} {v : Move → Score}
    {alpha beta0 : Score}
    (hf : ∀ m a bt, a < bt → min bt (max a (f m a bt)) = min bt (max a (v m))) :
    ∀ (ms : List Move) (acc beta : Score), alpha < beta → beta = min beta0 acc →
      max alpha (min beta0 (abMinLoop f alpha ms acc beta)) =
        max alpha (min beta0 (ms.foldl (fun a m => min a (v m)) acc)) := by
  intro ms
  induction ms with
  | nil => intro acc beta h1 h2; rfl
  | cons m rest ih =>
      intro acc beta h1 h2
      rw [List.foldl_cons]
      show max alpha (min beta0
          (if min beta (f m alpha beta) ≤ alpha
           then min acc (f m alpha beta)
           else abMinLoop f alpha rest (min acc (f m alpha beta))
             (min beta (f m alpha beta)))) = _
      have hcl := hf m alpha beta h1
      by_cases hbr : min beta (f m alpha beta) ≤ alpha
      · rw [if_pos hbr]
        have hsb : f m alpha beta ≤ alpha := by
          rcases le_or_lt (f m alpha beta) alpha with h | h
          · exact h
          · exact absurd hbr (not_le.mpr (lt_min h1 h))
        have hvm : v m ≤ alpha := by
          rw [max_eq_left hsb, min_eq_right (le_of_lt h1)] at hcl
          have hbm : max alpha (v m) ≤ alpha := by
            rcases le_or_lt (max alpha (v m)) alpha with h | h
            · exact h
            · rcases le_or_lt beta (max alpha (v m)) with h' | h'
              · rw [min_eq_left h'] at hcl
                exact absurd hcl (ne_of_lt h1)
              · rw [min_eq_right (le_of_lt h')] at hcl
                exact absurd hcl.symm (ne_of_gt h)
          exact le_trans (le_max_right alpha _) hbm
        have hL : max alpha (min beta0 (min acc (f m alpha beta))) = alpha :=
          max_eq_left (le_trans (le_trans (min_le_right beta0 _)
            (min_le_right acc _)) hsb)
        have hR : max alpha (min beta0
            (rest.foldl (fun a m => min a (v m)) (min acc (v m)))) = alpha :=
          max_eq_left (le_trans (min_le_right beta0 _)
            (le_trans (foldl_min_le v rest (min acc (v m)))
              (le_trans (min_le_right acc _) hvm)))
        rw [hL, hR]
      · rw [if_neg hbr]
        push_neg at hbr
        have hsa : alpha < f m alpha beta := by
          rcases le_or_lt (f m alpha beta) alpha with h | h
          · exact absurd hbr (not_lt.mpr (le_trans (min_le_right beta _) h))
          · exact h
        have hstar : min beta (f m alpha beta) = min beta (v m) := by
          rw [max_eq_right (le_of_lt hsa)] at hcl
          have hva : alpha < v m := by
            rcases le_or_lt (v m) alpha with h | h
            · rw [max_eq_left h, min_eq_right (le_of_lt h1)] at hcl
              exact absurd hcl (ne_of_gt hbr)
            · exact h
          rw [max_eq_right (le_of_lt hva)] at hcl
          exact hcl
        have harg : min beta (f m alpha beta) = min beta0 (min acc (f m alpha beta)) := by
          rw [h2, min_assoc]
        have harg2 : min beta (v m) = min beta0 (min acc (v m)) := by
          rw [h2, min_assoc]
        rw [ih (min acc (f m alpha beta)) (min beta (f m alpha beta)) hbr harg]
        rw [foldl_min_decomp v rest (min acc (f m alpha beta)),
          foldl_min_decomp v rest (min acc (v m))]
        rw [← min_assoc beta0 (min acc (f m alpha beta)),
          ← min_assoc beta0 (min acc (v m)), ← harg, ← harg2, hstar]

/-- Clamping into `[a, bt]` can be written in either nesting order. -/
lemma clamp_comm {a bt x : Score} (h : a ≤ bt) :
    min bt (max a x) = max a (min bt x) := by
  rw [max_min_distrib_left, max_eq_right h]

/-- Knuth-Moore theorem for the engine: the alpha-beta score and the plain
minimax score agree after clamping into the window, for any window. -/
lemma minimaxD_clamp :
    ∀ (d : ℕ) (b : MinichessBoard) (mx : Bool) (alpha beta : Score),
      alpha < beta →
      min beta (max alpha (minimaxD b d alpha beta mx)) =
        min beta (max alpha (plain_minimaxD b d mx)) := by
  intro d
  induction d with
  | zero => intro b mx alpha beta _; rfl
  | succ d ih =>
      intro b mx alpha beta hab
      rw [minimaxD, plain_minimaxD]
      by_cases hgo : is_game_over b = true
      · rw [if_pos hgo, if_pos hgo]
      · rw [if_neg hgo, if_neg hgo]
        cases mx with
        | true =>
            simp only [if_true]
            exact abMaxLoop_clamp
              (fun m a bt h => ih (make_move b m).1 false a bt h)
              (order_moves b (generate_legal_moves b)) ⊥ alpha hab
              (max_eq_left bot_le).symm
        | false =>
            simp only [Bool.false_eq_true, if_false]
            rw [clamp_comm (le_of_lt hab), clamp_comm (le_of_lt hab)]
            exact abMinLoop_clamp
              (fun m a bt h => ih (make_move b m).1 true a bt h)
              (order_moves b (generate_legal_moves b)) ⊤ beta hab
              (min_eq_left le_top).symm

/-! ### Heap frame lemmas -/

/-- The heap `h'` agrees with `h` on every cell the board `hb` references. -/
def Agrees (h h' : Heap) (hb : HBoard) : Prop :=
  (∀ a ∈ hb.rowRefs, h'.rowCells a = h.rowCells a) ∧
    h'.histCells hb.histRef = h.histCells hb.histRef

lemma observe_eq_of_agrees {h h' : Heap} {hb : HBoard} (hA : Agrees h h' hb) :
    observe h' hb = observe h hb := by
  rw [observe, observe, List.map_congr_left hA.1, hA.2]

lemma copyOp_agrees {h : Heap} {hb : HBoard} (hwf : WFB h hb) :
    Agrees h (copyOp h hb).1 hb := by
  constructor
  · intro a ha
    have halt : a < h.next := hwf.1 a ha
    show (if h.next ≤ a ∧ a < h.next + hb.rows then _ else h.rowCells a) = h.rowCells a
    rw [if_neg]
    rintro ⟨h1, _⟩
    omega
  · show Function.update h.histCells (h.next + hb.rows) _ hb.histRef = _
    rw [Function.update_noteq]
    have := hwf.2.1
    omega

lemma hCellSet_agrees {h h' : Heap} {hb c : HBoard} (hA : Agrees h h' hb)
    (hdisj : ∀ a ∈ c.rowRefs, ∀ a' ∈ hb.rowRefs, a ≠ a')
    {r : ℤ} (hr : r.toNat < c.rowRefs.length) (ci : ℤ) (p : Option Piece) :
    Agrees h (hCellSet h' c r ci p) hb := by
  refine ⟨?_, hA.2⟩
  intro a ha
  show Function.update h'.rowCells (c.rowRefs.getD r.toNat 0) _ a = _
  rw [Function.update_noteq, hA.1 a ha]
  have hmem : c.rowRefs.getD r.toNat 0 ∈ c.rowRefs := by
    rw [List.getD_eq_getElem _ _ hr]
    exact List.getElem_mem hr
  exact (hdisj _ hmem a ha).symm

lemma set_pieceOp_agrees {h h' : Heap} {hb c : HBoard} (hA : Agrees h h' hb)
    (hdisj : ∀ a ∈ c.rowRefs, ∀ a' ∈ hb.rowRefs, a ≠ a')
    (hlen : c.rowRefs.length = c.rows) (r ci : ℤ) (p : Option Piece) :
    Agrees h (set_pieceOp h' c r ci p) hb := by
  rw [set_pieceOp]
  split
  next hval =>
    have hr : r.toNat < c.rowRefs.length := by
      rw [hlen]
      simp only [is_valid_pos, observe, Bool.and_eq_true, decide_eq_true_eq] at hval
      omega
    exact hCellSet_agrees hA hdisj hr ci p
  next => exact hA

lemma make_moveOp_agrees {h h' : Heap} {hb c : HBoard} {m : Move} (hA : Agrees h h' hb)
    (hdisj : ∀ a ∈ c.rowRefs, ∀ a' ∈ hb.rowRefs, a ≠ a')
    (hhist : c.histRef ≠ hb.histRef)
    (hlen : c.rowRefs.length = c.rows) (hop : opInBounds c (MutOp.mk_move m)) :
    Agrees h (make_moveOp h' c m).1 hb := by
  obtain ⟨⟨hf1, hf2, hf3, hf4⟩, ht1, ht2, ht3, ht4⟩ := hop
  have hfr : m.from_pos.1.toNat < c.rowRefs.length := by
    rw [hlen]; omega
  have htr : m.to_pos.1.toNat < c.rowRefs.length := by
    rw [hlen]; omega
  have hA1 := hCellSet_agrees hA hdisj htr m.to_pos.2
    (hCellGet h' c m.from_pos.1 m.from_pos.2)
  have hA2 := hCellSet_agrees hA1 hdisj hfr m.from_pos.2 none
  refine ⟨hA2.1, ?_⟩
  show Function.update _ c.histRef _ hb.histRef = _
  rw [Function.update_noteq hhist.symm]
  exact hA2.2

lemma applyOps_agrees {h : Heap} {hb : HBoard} :
    ∀ (ops : List MutOp) (h' : Heap) (c : HBoard),
      Agrees h h' hb →
      (∀ a ∈ c.rowRefs, ∀ a' ∈ hb.rowRefs, a ≠ a') →
      c.histRef ≠ hb.histRef →
      c.rowRefs.length = c.rows →
      (∀ op ∈ ops, opInBounds c op) →
      Agrees h (applyOps h' c ops).1 hb := by
  intro ops
  induction ops with
  | nil => intro h' c hA _ _ _ _; exact hA
  | cons op rest ih =>
      intro h' c hA hdisj hhist hlen hops
      cases op with
      | mk_move m =>
          exact ih (make_moveOp h' c m).1 (make_moveOp h' c m).2.1
            (make_moveOp_agrees hA hdisj hhist hlen
              (hops _ (List.mem_cons_self _ _)))
            hdisj hhist hlen
            (fun op hop => hops op (List.mem_cons_of_mem _ hop))
      | set_p r ci p =>
          exact ih (set_pieceOp h' c r ci p) c
            (set_pieceOp_agrees hA hdisj hlen r ci p)
            hdisj hhist hlen
            (fun op hop => hops op (List.mem_cons_of_mem _ hop))

/-! ### Restoration lemmas for the in-place legality filter -/

lemma list_set_getD_self {α : Type} (l : List α) (i : ℕ) (d : α) (h : i < l.length) :
    l.set i (l.getD i d) = l := by
  apply List.ext_getElem (by simp)
  intro j h1 h2
  rw [List.getElem_set]
  split
  next he =>
    subst he
    rw [List.getD_eq_getElem _ _ h]
  next => rfl

lemma list_getD_set_self {α : Type} (l : List α) (i : ℕ) (v d : α) (h : i < l.length) :
    (l.set i v).getD i d = v := by
  rw [List.getD_eq_getElem _ _ (by simpa using h)]
  simp [List.getElem_set]

lemma list_getD_set_ne {α : Type} (l : List α) {i j : ℕ} (hne : i ≠ j) (v d : α)
    (hj : j < l.length) :
    (l.set i v).getD j d = l.getD j d := by
  rw [List.getD_eq_getElem _ _ (by simpa using hj), List.getD_eq_getElem _ _ hj]
  simp [List.getElem_set, hne]

/-- The write/restore cell discipline of `_move_leaves_king_in_check`
returns any store to exactly its initial state. -/
lemma restore_chain (f : ℕ → List (Option Piece)) (A B fc tc : ℕ)
    (hfc : fc < (f A).length) (htc : tc < (f B).length) :
    (let g1 := Function.update f B ((f B).set tc ((f A).getD fc none))
     let g2 := Function.update g1 A ((g1 A).set fc none)
     let g3 := Function.update g2 A ((g2 A).set fc ((g2 B).getD tc none))
     Function.update g3 B ((g3 B).set tc ((f B).getD tc none))) = f := by
  by_cases hAB : A = B
  · subst hAB
    -- a single row: every write lands in the same cell list
    show Function.update _ A _ = f
    simp only [Function.update_same, Function.update_idem]
    by_cases hct : fc = tc
    · subst hct
      rw [list_set_getD_self _ _ _ hfc]
      rw [list_getD_set_self _ _ _ _ (by simpa using hfc)]
      rw [List.set_set, List.set_set, list_set_getD_self _ _ _ hfc]
      exact Function.update_eq_self A f
    · have h1 : (((f A).set tc ((f A).getD fc none)).set fc none).getD tc none =
          (f A).getD fc none := by
        rw [list_getD_set_ne _ hct _ _ (by simpa using htc),
          list_getD_set_self _ _ _ _ htc]
      rw [h1, List.set_set]
      have h2 : ((f A).set tc ((f A).getD fc none)).set fc ((f A).getD fc none) =
          (f A).set tc ((f A).getD fc none) := by
        apply List.ext_getElem (by simp)
        intro j hj1 hj2
        rw [List.getElem_set]
        by_cases hj : fc = j
        · subst hj
          rw [if_pos rfl, List.getElem_set, if_neg (fun h => hct h.symm)]
          exact List.getD_eq_getElem _ _ hfc
        · rw [if_neg hj]
      rw [h2, List.set_set, list_set_getD_self _ _ _ htc]
      exact Function.update_eq_self A f
  · show Function.update _ B _ = f
    funext a
    by_cases haB : a = B
    · subst haB
      rw [Function.update_same]
      simp only [Function.update_same, Function.update_noteq hAB,
        Function.update_noteq (Ne.symm hAB)]
      rw [List.set_set, list_set_getD_self _ _ _ htc]
    · rw [Function.update_noteq haB]
      by_cases haA : a = A
      · subst haA
        rw [Function.update_same]
        simp only [Function.update_same, Function.update_noteq hAB,
          Function.update_noteq (Ne.symm hAB)]
        rw [list_getD_set_self _ _ _ _ htc, List.set_set,
          list_set_getD_self _ _ _ hfc]
      · rw [Function.update_noteq haA, Function.update_noteq haA,
          Function.update_noteq haB]

lemma cellGet_some_bounds {g : Grid} {r c : ℤ} {p : Piece}
    (h : cellGet g r c = some p) :
    r.toNat < g.length ∧ c.toNat < (g.getD r.toNat []).length := by
  unfold cellGet at h
  constructor
  · by_contra hcon
    rw [List.getD_eq_default _ _ (le_of_not_lt hcon)] at h
    simp at h
  · by_contra hcon
    rw [List.getD_eq_default _ _ (le_of_not_lt hcon)] at h
    simp at h

lemma observe_getD_row {h : Heap} {hb : HBoard} {i : ℕ} (hi : i < hb.rowRefs.length) :
    (observe h hb).core.board.getD i [] = h.rowCells (hb.rowRefs.getD i 0) := by
  show (hb.rowRefs.map h.rowCells).getD i [] = _
  rw [List.getD_eq_getElem _ _ (by simpa using hi), List.getElem_map,
    List.getD_eq_getElem _ _ hi]

/-- The speculative-move legality check restores the heap exactly. -/
lemma mlkicOp_restores {h : Heap} {hb : HBoard} {m : Move}
    (hfr : m.from_pos.1.toNat < hb.rowRefs.length)
    (htr : m.to_pos.1.toNat < hb.rowRefs.length)
    (hfc : m.from_pos.2.toNat <
      (h.rowCells (hb.rowRefs.getD m.from_pos.1.toNat 0)).length)
    (htc : m.to_pos.2.toNat <
      (h.rowCells (hb.rowRefs.getD m.to_pos.1.toNat 0)).length) :
    (mlkicOp h hb m).1 = h := by
  refine Heap.ext ?_ rfl rfl
  exact restore_chain h.rowCells
    (hb.rowRefs.getD m.from_pos.1.toNat 0) (hb.rowRefs.getD m.to_pos.1.toNat 0)
    m.from_pos.2.toNat m.to_pos.2.toNat hfc htc

lemma legalMovesOp_heap_eq {h : Heap} {hb : HBoard} (hwf : WFB h hb) :
    (legalMovesOp h hb).1 = h := by
  unfold legalMovesOp
  have key : ∀ (ms : List Move) (l0 : List Move),
      (∀ m ∈ ms, (mlkicOp h hb m).1 = h) →
      (ms.foldl (fun acc m =>
        let r := mlkicOp acc.1 hb m
        (r.1, if r.2 then acc.2 else acc.2 ++ [m])) (h, l0)).1 = h := by
    intro ms
    induction ms with
    | nil => intro l0 _; rfl
    | cons m rest ih =>
        intro l0 hres
        rw [List.foldl_cons]
        show (rest.foldl _ ((mlkicOp h hb m).1,
          if (mlkicOp h hb m).2 then l0 else l0 ++ [m])).1 = h
        rw [hres m (List.mem_cons_self _ _)]
        exact ih _ (fun m' hm' => hres m' (List.mem_cons_of_mem _ hm'))
  apply key
  intro m hm
  obtain ⟨hfromcell, _, _, hvalid, _⟩ := mem_allPseudoMoves hm
  have hfb := cellGet_some_bounds hfromcell
  have hfr : m.from_pos.1.toNat < hb.rowRefs.length := by
    have := hfb.1
    simpa [observe] using this
  have hfc : m.from_pos.2.toNat <
      (h.rowCells (hb.rowRefs.getD m.from_pos.1.toNat 0)).length := by
    have := hfb.2
    rwa [observe_getD_row hfr] at this
  simp only [is_valid_pos, observe, Bool.and_eq_true, decide_eq_true_eq] at hvalid
  have htr : m.to_pos.1.toNat < hb.rowRefs.length := by
    rw [hwf.2.2.1]
    omega
  have hBmem : hb.rowRefs.getD m.to_pos.1.toNat 0 ∈ hb.rowRefs := by
    rw [List.getD_eq_getElem _ _ htr]
    exact List.getElem_mem htr
  have htc : m.to_pos.2.toNat <
      (h.rowCells (hb.rowRefs.getD m.to_pos.1.toNat 0)).length := by
    rw [hwf.2.2.2.2 _ hBmem]
    omega
  exact mlkicOp_restores hfr htr hfc htc

/-! ## Claim theorems -/

/-- C1: for every board state and every move `m` in the list returned by
`generate_legal_moves`, applying `m` with `make_move` yields a state in
which the mover's own king is not attacked: `is_in_check` of the mover's
color is false immediately after the move. -/
theorem C1_legal_moves_leave_mover_safe (b : MinichessBoard) (m : Move)
    (h : m ∈ generate_legal_moves b) :
    is_in_check (make_move b m).1.core m.piece.color = false :=
  (mem_generate_legal_moves h).2

/-- C1 witness: the first legal move of the initial 4x4 position. -/
theorem C1_legal_moves_leave_mover_safe_witness :
    Move.mk (1, 0) (2, 1) (Piece.mk PieceType.pawn Color.white)
        (some (Piece.mk PieceType.pawn Color.black)) ∈ generate_legal_moves init4x4 ∧
      is_in_check
        (make_move init4x4
            (Move.mk (1, 0) (2, 1) (Piece.mk PieceType.pawn Color.white)
              (some (Piece.mk PieceType.pawn Color.black)))).1.core
        Color.white = false :=
  ⟨by decide, C1_legal_moves_leave_mover_safe init4x4 _ (by decide)⟩

/-- C2: `is_checkmate` holds exactly when the side to move is in check and
the legal move list is empty; `is_stalemate` holds exactly when the side to
move is not in check and the legal move list is empty. -/
theorem C2_checkmate_stalemate_spec (b : MinichessBoard) :
    (is_checkmate b = true ↔
        is_in_check b.core b.turn = true ∧ generate_legal_moves b = []) ∧
      (is_stalemate b = true ↔
        is_in_check b.core b.turn = false ∧ generate_legal_moves b = []) := by
  by_cases h : is_in_check b.core b.turn = true <;>
    simp [is_checkmate, is_stalemate, h, List.length_eq_zero]

/-- C3 counterexample: on the initial 4x4 board, White to move, the square
(2, 0) holds a black pawn, yet `make_move` applied to a move departing from
(2, 0) reports success (`True`) instead of failing. -/
theorem C3_make_move_accepts_wrong_color :
    init4x4.turn = Color.white ∧
      get_piece init4x4.core 2 0 = some (Piece.mk PieceType.pawn Color.black) ∧
      (make_move init4x4
          (Move.mk (2, 0) (3, 1) (Piece.mk PieceType.pawn Color.black)
            (some (Piece.mk PieceType.rook Color.black)))).2 = true :=
  ⟨by decide, by decide, by decide⟩

/-- C3 amended: `make_move` performs no validation at all: for any move
between on-board squares it applies the move unconditionally and returns
`True`, even when the from-square does not hold a piece of the side to
move. -/
theorem C3_make_move_always_reports_success (b : MinichessBoard) (m : Move)
    (hf : is_valid_pos b.core m.from_pos.1 m.from_pos.2 = true)
    (ht : is_valid_pos b.core m.to_pos.1 m.to_pos.2 = true) :
    (make_move b m).2 = true := rfl

/-- C3 amended witness: the wrong-color move of the counterexample. -/
theorem C3_make_move_always_reports_success_witness :
    is_valid_pos init4x4.core 2 0 = true ∧ is_valid_pos init4x4.core 3 1 = true ∧
      (make_move init4x4
          (Move.mk (2, 0) (3, 1) (Piece.mk PieceType.pawn Color.black)
            (some (Piece.mk PieceType.rook Color.black)))).2 = true :=
  ⟨by decide, by decide,
    C3_make_move_always_reports_success init4x4 _ (by decide) (by decide)⟩

lemma jitCex_within_uniform_range (n : ℕ) :
    -(1 / 1000) ≤ jitCex n ∧ jitCex n ≤ 1 / 1000 := by
  have h0 : (0 : ℚ) ≤ ((n * 37) % 101 : ℕ) := by positivity
  have h1 : ((n * 37) % 101 : ℕ) ≤ (100 : ℚ) := by
    exact_mod_cast Nat.le_of_lt_succ (Nat.mod_lt _ (by norm_num))
  constructor
  · rw [jitCex, le_div_iff₀ (by norm_num : (0 : ℚ) < 1000000)]
    linarith
  · rw [jitCex, div_le_iff₀ (by norm_num : (0 : ℚ) < 1000000)]
    linarith

/-- C4 counterexample: on a position reachable by one legal move from the
initial 4x4 board, at depth 2 and with the full window
(`alpha = -inf`, `beta = +inf`), the alpha-beta `minimax` score differs
from the plain (pruning-free) minimax score: pruning skips evaluations, so
the two searches consume the `random.uniform(-0.001, 0.001)` stream at
different positions and their scores differ (here by 7/1000000). -/
theorem C4_pruning_changes_score_with_jitter :
    mCex ∈ generate_legal_moves init4x4 ∧
      (minimax jitCex cexBoard 2 ⊥ ⊤ false 0).1 ≠
        (plain_minimax jitCex cexBoard 2 false 0).1 :=
  ⟨by decide, by with_unfolding_all decide⟩

/-- C4 amended: with the random perturbation removed from the evaluation
(the deterministic evaluation `evaluate_positionD`), the alpha-beta score
at the full window equals the plain minimax score at every depth and
position. -/
theorem C4_alphabeta_eq_plain_minimax_deterministic
    (b : MinichessBoard) (d : ℕ) (mx : Bool) :
    minimaxD b d ⊥ ⊤ mx = plain_minimaxD b d mx := by
  have h := minimaxD_clamp d b mx ⊥ ⊤ bot_lt_top
  rwa [max_eq_right bot_le, max_eq_right bot_le,
    min_eq_right le_top, min_eq_right le_top] at h

/-- C8: in the heap model, `copy` followed by any sequence of `make_move`
and `set_piece` mutations of the copy leaves the original board's
observable state — grid contents, side to move, move history, halfmove
clock and fullmove counter — exactly as it was at the time of the copy. -/
theorem C8_copy_then_mutate_preserves_original (h : Heap) (hb : HBoard)
    (ops : List MutOp) (hwf : WFB h hb)
    (hops : ∀ op ∈ ops, opInBounds hb op) :
    observe (applyOps (copyOp h hb).1 (copyOp h hb).2 ops).1 hb = observe h hb := by
  apply observe_eq_of_agrees
  apply applyOps_agrees ops _ _ (copyOp_agrees hwf)
  · intro a ha a' ha'
    simp only [copyOp, List.mem_map, List.mem_range] at ha
    obtain ⟨r, hr, rfl⟩ := ha
    have := hwf.1 a' ha'
    omega
  · show h.next + hb.rows ≠ hb.histRef
    have := hwf.2.1
    omega
  · show ((List.range hb.rows).map _).length = hb.rows
    simp
  · intro op hop
    exact hops op hop

/-- C8 witness: a make_move plus a set_piece on the copy of a concrete
well-formed 4x4 heap board. -/
theorem C8_copy_then_mutate_preserves_original_witness :
    observe (applyOps (copyOp heap4x4 hb4x4).1 (copyOp heap4x4 hb4x4).2
        [MutOp.mk_move (Move.mk (1, 0) (2, 1) (Piece.mk PieceType.pawn Color.white)
            (some (Piece.mk PieceType.pawn Color.black))),
          MutOp.set_p 0 0 none]).1 hb4x4 =
      observe heap4x4 hb4x4 :=
  C8_copy_then_mutate_preserves_original heap4x4 hb4x4 _ (by decide) (by decide)

/-- C10: in the heap model, `generate_legal_moves` — whose legality filter
temporarily mutates the grid in place and restores it for each candidate
move — leaves the heap, and hence the observable board state (grid
contents, side to move, move history, halfmove clock, fullmove counter),
exactly as it was before the call. -/
theorem C10_generate_legal_moves_frame (h : Heap) (hb : HBoard) (hwf : WFB h hb) :
    (legalMovesOp h hb).1 = h ∧
      observe (legalMovesOp h hb).1 hb = observe h hb := by
  have h1 := legalMovesOp_heap_eq hwf
  exact ⟨h1, by rw [h1]⟩

/-- C10 witness: the concrete well-formed 4x4 heap board. -/
theorem C10_generate_legal_moves_frame_witness :
    (legalMovesOp heap4x4 hb4x4).1 = heap4x4 ∧
      observe (legalMovesOp heap4x4 hb4x4).1 hb4x4 = observe heap4x4 hb4x4 :=
  C10_generate_legal_moves_frame heap4x4 hb4x4 (by decide)

/-- C5: each strategy's `get_move` returns `none` exactly when
`generate_legal_moves` is empty, and any move it returns is an element of
`generate_legal_moves`.  The random selectors `k`, `k'` and the evaluation
jitter stream `jit` are arbitrary; the minimax engine is taken at any
configured depth ≥ 1. -/
theorem C5_get_move_spec (b : MinichessBoard) (k k' i : ℕ) (jit : ℕ → ℚ)
    (depth : ℕ) (hd : 1 ≤ depth) :
    ((random_get_move b k = none ↔ generate_legal_moves b = []) ∧
        ∀ m, random_get_move b k = some m → m ∈ generate_legal_moves b) ∧
      ((greedy_get_move b k' = none ↔ generate_legal_moves b = []) ∧
        ∀ m, greedy_get_move b k' = some m → m ∈ generate_legal_moves b) ∧
      (((minimax_get_move jit depth b i).1 = none ↔ generate_legal_moves b = []) ∧
        ∀ m, (minimax_get_move jit depth b i).1 = some m → m ∈ generate_legal_moves b) := by
  clear hd
  by_cases hleg : generate_legal_moves b = []
  · have he : (generate_legal_moves b).isEmpty = true := by simp [hleg]
    refine ⟨⟨?_, ?_⟩, ⟨?_, ?_⟩, ⟨?_, ?_⟩⟩ <;>
      simp [random_get_move, greedy_get_move, minimax_get_move, he, hleg]
  · have he : (generate_legal_moves b).isEmpty = false := List.isEmpty_eq_false.mpr hleg
    refine ⟨⟨?_, ?_⟩, ⟨?_, ?_⟩, ⟨?_, ?_⟩⟩
    · obtain ⟨m, hm, hrc⟩ := random_choice_mem (α := Move) k hleg
      simp [random_get_move, he, hrc, hleg]
    · intro m hsome
      rw [random_get_move] at hsome
      rw [if_neg (by simp [he])] at hsome
      obtain ⟨m', hm', hrc⟩ := random_choice_mem (α := Move) k hleg
      rw [hrc] at hsome
      rw [← Option.some_inj.mp hsome]
      exact hm'
    · obtain ⟨m, hm, hg⟩ := greedy_some_mem k' hleg
      simp [hg, hleg]
    · intro m hsome
      obtain ⟨m', hm', hg⟩ := greedy_some_mem k' hleg
      rw [hg] at hsome
      rw [← Option.some_inj.mp hsome]
      exact hm'
    · rw [minimax_get_move]
      rw [if_neg (by simp [he])]
      cases hmx : decide (b.turn = Color.white) with
      | true =>
          simp only [hmx, if_true]
          obtain ⟨m, hm, hr⟩ := rootMaxLoop_some_mem jit b (depth - 1) hleg i
          simp [of_decide_eq_true hmx, hr, hleg]
      | false =>
          simp only [hmx]
          obtain ⟨m, hm, hr⟩ := rootMinLoop_some_mem jit b (depth - 1) hleg i
          simp [of_decide_eq_false hmx, hr, hleg]
    · intro m hsome
      rw [minimax_get_move] at hsome
      rw [if_neg (by simp [he])] at hsome
      by_cases hmx : b.turn = Color.white
      · rw [if_pos hmx] at hsome
        obtain ⟨m', hm', hr⟩ := rootMaxLoop_some_mem jit b (depth - 1) hleg i
        rw [hr] at hsome
        rw [← Option.some_inj.mp hsome]
        exact hm'
      · rw [if_neg hmx] at hsome
        obtain ⟨m', hm', hr⟩ := rootMinLoop_some_mem jit b (depth - 1) hleg i
        rw [hr] at hsome
        rw [← Option.some_inj.mp hsome]
        exact hm'

/-- C5 witness: depth 1 on the initial 4x4 board. -/
theorem C5_get_move_spec_witness :
    (1 : ℕ) ≤ 1 ∧
      (((minimax_get_move (fun _ => 0) 1 init4x4 0).1 = none ↔
          generate_legal_moves init4x4 = []) ∧
        ∀ m, (minimax_get_move (fun _ => 0) 1 init4x4 0).1 = some m →
          m ∈ generate_legal_moves init4x4) :=
  ⟨le_rfl, (C5_get_move_spec init4x4 0 0 0 (fun _ => 0) 1 le_rfl).2.2⟩

/-- C6: for every legal move, `make_move` resets the halfmove clock to 0
exactly when the destination square holds a piece (a capture) or the mover
is a pawn, and otherwise increments it by exactly 1. -/
theorem C6_halfmove_clock_spec (b : MinichessBoard) (m : Move)
    (h : m ∈ generate_legal_moves b) :
    (make_move b m).1.halfmove_clock =
      if (get_piece b.core m.to_pos.1 m.to_pos.2).isSome ∨ m.piece.type = PieceType.pawn
      then 0 else b.halfmove_clock + 1 := by
  obtain ⟨hp, _⟩ := mem_generate_legal_moves h
  obtain ⟨_, _, hcap, hval, _⟩ := mem_allPseudoMoves hp
  simp only [make_move]
  rw [get_piece, if_pos hval, ← hcap]
  by_cases hc : m.captured.isSome <;>
    by_cases hpw : m.piece.type = PieceType.pawn <;> simp [hc, hpw]

/-- C6 witness: a pawn capture from the initial 4x4 position resets the
clock to 0; a quiet rook move from the initial 4x5 position after two pawn
pushes would increment it, but here the capture branch is exercised. -/
theorem C6_halfmove_clock_spec_witness :
    Move.mk (1, 0) (2, 1) (Piece.mk PieceType.pawn Color.white)
        (some (Piece.mk PieceType.pawn Color.black)) ∈ generate_legal_moves init4x4 ∧
      (make_move init4x4
          (Move.mk (1, 0) (2, 1) (Piece.mk PieceType.pawn Color.white)
            (some (Piece.mk PieceType.pawn Color.black)))).1.halfmove_clock =
        if (get_piece init4x4.core 2 1).isSome ∨ PieceType.pawn = PieceType.pawn
        then 0 else init4x4.halfmove_clock + 1 :=
  ⟨by decide, C6_halfmove_clock_spec init4x4 _ (by decide)⟩

/-- C7: `is_game_over` holds exactly for checkmate, stalemate or a
halfmove clock at the fixed threshold 50; `get_result` reports "1-0" when
Black is checkmated, "0-1" when White is checkmated, "1/2-1/2" for
stalemate or a clock-draw, and "*" otherwise. -/
theorem C7_game_over_result_spec (b : MinichessBoard) :
    (is_game_over b = true ↔
        (is_checkmate b = true ∨ is_stalemate b = true ∨ 50 ≤ b.halfmove_clock)) ∧
      get_result b =
        (if is_checkmate b = true ∧ b.turn = Color.black then "1-0"
         else if is_checkmate b = true ∧ b.turn = Color.white then "0-1"
         else if is_stalemate b = true ∨ 50 ≤ b.halfmove_clock then "1/2-1/2"
         else "*") := by
  constructor
  · by_cases hc : is_checkmate b = true <;> by_cases hs : is_stalemate b = true <;>
      by_cases hk : 50 ≤ b.halfmove_clock <;> simp [is_game_over, hc, hs, hk]
  · by_cases hc : is_checkmate b = true <;> by_cases hs : is_stalemate b = true <;>
      by_cases hk : 50 ≤ b.halfmove_clock <;> cases ht : b.turn <;>
      simp [get_result, hc, hs, hk, ht]

end Minichess
